import Mathlib

/-!
Verification of the ts-sjcl core: the `BitArray` bit-level substrate
(`src/src/bitarray.ts`) and the Fortuna-style PRNG engine (`src/src/prng.ts`).

JavaScript numbers holding bit-array words are exact integers (int32 results of
`|`, `^`, `<<`, signed values; uint32 results of `>>>`; and partial-word cells
`base + len * 2^40`), so words are embedded as `Int` and every JS bitwise
operator is modelled by an explicit function reproducing the ToInt32/ToUint32
coercions of the JS spec.  All definitions are executable.
-/

namespace Sjcl

/-- JS `ToUint32`: the operand reduced into `[0, 2^32)` (operands here are
always mathematical integers, so no float truncation is needed). -/
def u32 (x : Int) : Nat := (x % 4294967296).toNat

/-- Reinterpret a value in `[0, 2^32)` as a signed 32-bit integer
(JS `ToInt32` applied after a `u32` reduction). -/
def i32 (n : Nat) : Int := if n < 2147483648 then (n : Int) else (n : Int) - 4294967296

/-- JS `x | 0` (ToInt32). -/
def jsToInt32 (x : Int) : Int := i32 (u32 x)

/-- JS `a & b`. -/
def jsAnd (a b : Int) : Int := i32 (Nat.land (u32 a) (u32 b))

/-- JS `a | b`. -/
def jsOr (a b : Int) : Int := i32 (Nat.lor (u32 a) (u32 b))

/-- JS `a ^ b`. -/
def jsXor (a b : Int) : Int := i32 (Nat.xor (u32 a) (u32 b))

/-- JS shift count: `ToUint32(b) & 31`. -/
def shAmt (b : Int) : Nat := u32 b % 32

/-- JS `a << b`. -/
def jsShl (a b : Int) : Int := i32 ((u32 a <<< shAmt b) % 4294967296)

/-- JS `a >>> b` (unsigned shift; result is in `[0, 2^32)`). -/
def jsShrU (a b : Int) : Int := ((u32 a >>> shAmt b : Nat) : Int)

/-- JS `a >> b` (arithmetic shift of the ToInt32 value, i.e. floor division). -/
def jsShrS (a b : Int) : Int := Int.fdiv (jsToInt32 a) (2 ^ shAmt b)

namespace BitArray

/-- `BitArray.getPartial`: `Math.round(x / 0x10000000000) || 32`.
For an integer cell `x`, `x / 2^40` is exact in a JS double and
`Math.round q = ⌊q + 1/2⌋`, i.e. `⌊(2x + 2^40) / 2^41⌋`. -/
def getPartial (x : Int) : Int :=
  let r := (2 * x + 1099511627776).fdiv 2199023255552
  if r = 0 then 32 else r

/-- `BitArray.partial` (renamed: `partial` is a Lean keyword):
`(_end ? x | 0 : x << (32 - len)) + len * 0x10000000000`, guarded by `len === 32`. -/
def mkPartial (len : Int) (x : Int) (end_ : Bool) : Int :=
  if len = 32 then x
  else (if end_ then jsToInt32 x else jsShl x (32 - len)) + len * 1099511627776

/-- `BitArray.bitLength`: `(l - 1) * 32 + getPartial (a[l-1])`, `0` when empty. -/
def bitLength (a : List Int) : Int :=
  if a.isEmpty then 0 else 32 * ((a.length : Int) - 1) + getPartial (a.getLastD 0)

/-- The `for (; shift >= 32; shift -= 32)` prefix loop of `BitArray._shiftRight`:
pushes the carry (then zeros) while the shift is at least a word. -/
def srPre (shift carry : Int) (out : List Int) : Int × Int × List Int :=
  if h : 32 ≤ shift then srPre (shift - 32) 0 (out ++ [carry]) else (shift, carry, out)
termination_by shift.toNat
decreasing_by simp_wf; omega

/-- The per-word loop of `BitArray._shiftRight`:
`out.push(carry | a[i] >>> shift); carry = a[i] << (32 - shift)`.
Returns the extended output and the final carry. -/
def srMain : List Int → Int → Int → List Int → List Int × Int
  | [], _, carry, out => (out, carry)
  | w :: rest, shift, carry, out =>
      srMain rest shift (jsShl w (32 - shift)) (out ++ [jsOr carry (jsShrU w shift)])

/-- `BitArray._shiftRight(a, shift, carry, out)`. -/
def shiftRightBA (a : List Int) (shift0 carry0 : Int) (out0 : List Int) : List Int :=
  let p := srPre shift0 carry0 out0
  let shift := p.1
  let carry := p.2.1
  let out := p.2.2
  if shift = 0 then out ++ a
  else
    let m := srMain a shift carry out
    let out1 := m.1
    let carry1 := m.2
    let last2 := a.getLastD 0
    let shift2 := getPartial last2
    -- `out.push(this.partial(shift + shift2 & 31, (shift + shift2 > 32) ? carry : out.pop(), 1))`
    if 32 < shift + shift2 then out1 ++ [mkPartial (jsAnd (shift + shift2) 31) carry1 true]
    else out1.dropLast ++ [mkPartial (jsAnd (shift + shift2) 31) (out1.getLastD 0) true]

/-- `BitArray.concat`. -/
def concat (a1 a2 : List Int) : List Int :=
  if a1.isEmpty || a2.isEmpty then a1 ++ a2
  else
    let last := a1.getLastD 0
    let shift := getPartial last
    if shift = 32 then a1 ++ a2
    else shiftRightBA a2 shift (jsToInt32 last) a1.dropLast

/-- `BitArray.clamp(a, len)`.  The truncation length is a non-negative bit
count, embedded as `Nat` (`Math.ceil(len/32)` is `(len+31)/32`, `len & 31` is
`len % 32` for non-negative `len`). -/
def clamp (a : List Int) (len : Nat) : List Int :=
  if (a.length : Int) * 32 < (len : Int) then a
  else
    let a2 := a.take ((len + 31) / 32)
    let l := a2.length
    let len2 := len % 32
    if 0 < l ∧ len2 ≠ 0 then
      a2.set (l - 1)
        (mkPartial (len2 : Int) (jsAnd (a2.getD (l - 1) 0) (jsShrS 2147483648 ((len2 : Int) - 1))) true)
    else a2

/-- `BitArray.extract(a, bstart, blength)`; bit offsets are non-negative,
embedded as `Nat` (`bstart / 32 | 0` is Nat division; the JS `Math.floor`
around the shift amount is the identity on integers). -/
def extract (a : List Int) (bstart blength : Nat) : Int :=
  let sh := jsAnd (-(bstart : Int) - (blength : Int)) 31
  let x :=
    if jsAnd (jsXor ((bstart : Int) + (blength : Int) - 1) (bstart : Int)) (-32) ≠ 0 then
      -- crosses a word boundary
      jsXor (jsShl (a.getD (bstart / 32) 0) (32 - sh)) (jsShrU (a.getD (bstart / 32 + 1) 0) sh)
    else
      jsShrU (a.getD (bstart / 32) 0) sh
  jsAnd x (jsShl 1 (blength : Int) - 1)

/-- A cell that holds a full 32-bit word: any int32 or uint32 value
(`getPartial` reads `32` on all of these). -/
def fullWordB (w : Int) : Bool :=
  decide (-2147483648 ≤ w) && decide (w < 4294967296)

/-- A cell that may end a bit array: a full word, or a partial word
`base + t * 2^40` with `1 ≤ t ≤ 31`, an int32 base, and the `32 - t` low bits
of the base zero (the data model's "left-justified, remaining low bits zero"). -/
def lastWordB (w : Int) : Bool :=
  fullWordB w ||
  (let t := getPartial w
   let base := w - t * 1099511627776
   decide (1 ≤ t) && decide (t ≤ 31) && decide (-2147483648 ≤ base) &&
     decide (base < 2147483648) && decide (u32 base % 2 ^ (32 - t.toNat) = 0))

/-- Well-formed bit array: every word except possibly the last is full, and
the last is a legitimate full or partial word. -/
def validBA (a : List Int) : Bool :=
  a.dropLast.all fullWordB &&
    (match a.getLast? with
     | none => true
     | some w => lastWordB w)

/-- Bit `p` of a bit array (bit 0 is the most significant bit of word 0),
reading the claim's "bits `bstart` through `bstart + blength - 1` of `a`". -/
def specBitAt (a : List Int) (p : Nat) : Nat :=
  (u32 (a.getD (p / 32) 0) >>> (31 - p % 32)) % 2

/-- The `n`-bit unsigned integer formed by bits `s .. s+n-1` of `a`,
most significant first — the specification's reading of `extract`. -/
def specBits (a : List Int) (s : Nat) : Nat → Nat
  | 0 => 0
  | n + 1 => specBitAt a s * 2 ^ n + specBits a (s + 1) n

end BitArray

/-! ## PRNG engine (`src/src/prng.ts`) -/

/-- Error taxonomy of `exception.ts` (`corrupt`, `invalid`, `bug`, `notReady`);
the human-readable messages are irrelevant to the claims and omitted. -/
inductive ExErr
  | corrupt
  | invalid
  | bug
  | notReady
deriving DecidableEq, Repr

/-- One datum absorbed by a pool's streaming SHA-256 accumulator: either a word
array or a raw string (the `string` case of `addEntropy` feeds both). -/
inductive AbsorbItem
  | ws (l : List Int)
  | txt (s : String)
deriving DecidableEq, Repr

/-- Modelled from the spec: the collaborators `hash.ts` and `cipher.ts` are not
part of the core sources, so the block cipher (`cipher.aes(key).encrypt`), the
one-shot hash (`hash.sha256.hash`) and a streaming accumulator's
`finalize` (digest of everything absorbed since the last reset) are abstract
functions; every theorem below holds for every choice of them. -/
structure Collab where
  enc : List Int → List Int → List Int
  hashW : List Int → List Int
  finalizePool : List AbsorbItem → List Int

/-- A fixed trivial collaborator instance (the spec's "fixed fake block cipher
/ fixed fake hash" test harness), used by concrete witnesses. -/
def trivCollab : Collab := ⟨fun _ b => b, fun _ => [0], fun _ => [0]⟩

/-- The events `_fireEvent` delivers.  The `progress` event's numeric argument
is a JS float (`getProgress` divides strengths); the claims only count events
and read the `seeded` argument, so `progress` is recorded without its value. -/
inductive Event
  | seeded (arg : Int)
  | progress
deriving DecidableEq, Repr

/-- The mutable state of `class prng`.  Pools are the streams absorbed by each
SHA-256 accumulator since its last reset; `cipher` is the key the current
`cipher.aes` instance was built from (`none` = `undefined`). -/
structure PrngState where
  pools : List (List AbsorbItem)
  poolEntropy : List Int
  reseedCount : Int
  robins : String → Option Int
  eventId : Int
  collectorIds : String → Option Int
  collectorIdNext : Int
  strength : Int
  poolStrength : Int
  nextReseed : Int
  key : List Int
  counter : List Int
  cipher : Option (List Int)
  defaultParanoia : Nat

/-- `new prng(defaultParanoia)` with the field initializers of the class. -/
def initState (dp : Nat) : PrngState where
  pools := [[]]
  poolEntropy := [0]
  reseedCount := 0
  robins := fun _ => none
  eventId := 0
  collectorIds := fun _ => none
  collectorIdNext := 0
  strength := 0
  poolStrength := 0
  nextReseed := 0
  key := [0, 0, 0, 0, 0, 0, 0, 0]
  counter := [0, 0, 0, 0]
  cipher := none
  defaultParanoia := dp

/-- `_PARANOIA_LEVELS`. -/
def PARANOIA_LEVELS : List Int := [0, 48, 64, 96, 128, 192, 256, 384, 512, 768, 1024]

/-- `isReady(paranoia?)` at wall-clock time `now`.  Status values:
`_NOT_READY = 0`, `_READY = 1`, `_REQUIRES_RESEED = 2`.  `this._strength &&`
is JS truthiness: the first branch also requires `strength ≠ 0`.  (Paranoia
indices above 10 read `undefined` from the table in JS and are outside this
model.) -/
def isReady (st : PrngState) (paranoia : Option Nat) (now : Int) : Int :=
  let entropyRequired := PARANOIA_LEVELS.getD (paranoia.getD st.defaultParanoia) 0
  if st.strength ≠ 0 ∧ st.strength ≥ entropyRequired then
    if st.poolEntropy.getD 0 0 > 80 ∧ now > st.nextReseed then 3 else 1
  else
    if st.poolStrength ≥ entropyRequired then 2 else 0

/-- The `data` argument of `addEntropy`: a JS number, a JS array (whose
elements may fail the `typeof === "number"` check), a `Uint32Array`, a string,
a non-array object, or any other value (`default:` case). -/
inductive EntropyData
  | num (n : Int)
  | arr (xs : List (Option Int))
  | u32arr (xs : List Int)
  | str (s : String)
  | objOther
  | other
deriving DecidableEq, Repr

/-- The "horrible entropy estimator" for one array element:
`while (tmp > 0) { estimatedEntropy++; tmp = tmp >>> 1; }`. -/
def estBits (t : Int) : Int :=
  if h : 0 < t then 1 + estBits (jsShrU t 1) else 0
termination_by t.toNat
decreasing_by
  simp_wf
  have e : jsShrU t 1 = (((t % 4294967296).toNat / 2 : Nat) : Int) := by
    simp [jsShrU, shAmt, u32, Nat.shiftRight_eq_div_pow]
  rw [e]
  omega

/-- Sum of `estBits` over the elements of an absorbed array. -/
def estSum (xs : List Int) : Int := (xs.map estBits).sum

/-- Append an absorbed item to pool `robin` (`this._pools[robin].update(...)`). -/
def updatePool (pools : List (List AbsorbItem)) (robin : Nat) (it : AbsorbItem) :
    List (List AbsorbItem) :=
  pools.set robin (pools.getD robin [] ++ [it])

/-- Result of one `addEntropy` call: the raised error if any (the JS `throw`
leaves the receiver mutated), the state at exit, the events fired (in order),
and the pool index the call targeted. -/
structure AddOut where
  err : Option ExErr
  st : PrngState
  events : List Event
  robinUsed : Int

/-- `addEntropy(data, estimatedEntropy, source)` at wall-clock time `t`
(`estimatedEntropy === undefined` is `none`).  Follows the source order:
default the source name, read the robin, snapshot `isReady()`, assign a
collector id on first sighting, advance the robin, dispatch on the shape of
`data` (possibly raising `bug`), book the strength, and fire events. -/
def addEntropy (st : PrngState) (data : EntropyData) (est? : Option Int)
    (source0 : String) (t : Int) : AddOut :=
  let source := if source0 = "" then "user" else source0
  let oldReady := isReady st none t
  let cNext := st.collectorIdNext
  let id := (st.collectorIds source).getD cNext
  let collectorIds :=
    match st.collectorIds source with
    | some _ => st.collectorIds
    | none => fun s => if s = source then some cNext else st.collectorIds s
  let collectorIdNext :=
    match st.collectorIds source with
    | some _ => cNext
    | none => cNext + 1
  let robin := (st.robins source).getD 0
  let robins := fun s =>
    if s = source then some ((robin + 1) % (st.pools.length : Int)) else st.robins s
  let st1 := { st with
    robins := robins
    collectorIds := collectorIds
    collectorIdNext := collectorIdNext }
  -- the switch on `typeof data`
  let branch : Option (List (List AbsorbItem) × Int × Int) :=
    match data with
    | .num n =>
        let est := est?.getD 1
        some (updatePool st.pools robin.toNat
                (.ws [id, st.eventId, 1, est, t, 1, jsToInt32 n]),
              st.eventId + 1, est)
    | .u32arr xs =>
        let est := est?.getD (estSum xs)
        some (updatePool st.pools robin.toNat
                (.ws ([id, st.eventId, 2, est, t, (xs.length : Int)] ++ xs)),
              st.eventId + 1, est)
    | .arr xs =>
        if xs.all fun x => x.isSome then
          let ns := xs.map fun x => x.getD 0
          let est := est?.getD (estSum ns)
          some (updatePool st.pools robin.toNat
                  (.ws ([id, st.eventId, 2, est, t, (ns.length : Int)] ++ ns)),
                st.eventId + 1, est)
        else none
    | .str s =>
        let est := est?.getD (s.length : Int)
        some (updatePool
                (updatePool st.pools robin.toNat
                  (.ws [id, st.eventId, 3, est, t, (s.length : Int)]))
                robin.toNat (.txt s),
              st.eventId + 1, est)
    | .objOther => none
    | .other => none
  match branch with
  | none => ⟨some .bug, st1, [], robin⟩
  | some (pools, eventId, est) =>
      let st2 := { st1 with
        pools := pools
        eventId := eventId
        poolEntropy := st.poolEntropy.set robin.toNat
          (st.poolEntropy.getD robin.toNat 0 + est)
        poolStrength := st.poolStrength + est }
      let events :=
        if oldReady = 0 then
          (if isReady st2 none t ≠ 0 then
            [Event.seeded (max st2.strength st2.poolStrength)] else []) ++ [Event.progress]
        else []
      ⟨none, st2, events, robin⟩

/-- The lane-by-lane counter increment shared by `_gen4words` and `_reseed`:
each 32-bit lane wraps, carrying into the next lane only on overflow. -/
def incCounter : List Int → List Int
  | [] => []
  | x :: rest =>
      let x2 := jsToInt32 (x + 1)
      if x2 ≠ 0 then x2 :: rest else x2 :: incCounter rest

/-- `_gen4words()`: increment the counter, encrypt it with the current cipher
(`this._cipher?.encrypt(...) || []`). -/
def gen4words (C : Collab) (st : PrngState) : List Int × PrngState :=
  let counter := incCounter st.counter
  let st := { st with counter := counter }
  match st.cipher with
  | some k => (C.enc k counter, st)
  | none => ([], st)

/-- `_gate()`: rekey the cipher with 8 freshly generated words. -/
def gate (C : Collab) (st : PrngState) : PrngState :=
  let r1 := gen4words C st
  let r2 := gen4words C r1.2
  let key := r1.1 ++ r2.1
  { r2.2 with key := key, cipher := some key }

/-- `_reseed(seedWords)`: hash the old key with the seed words into the new
key, rebuild the cipher, bump the counter. -/
def reseedKey (C : Collab) (st : PrngState) (seedWords : List Int) : PrngState :=
  let key := C.hashW (st.key ++ seedWords)
  { st with key := key, cipher := some key, counter := incCounter st.counter }

/-- The pool loop of `_reseedFromPools`: finalize pool `i`, add its entropy to
the reseed's strength, reset it, and break when `!full` and bit `i` of
`reseedCount` is set.  Returns the concatenated digests, the consumed
strength, the updated pools and entropy counters, and (instrumentation) the
list of pool indices the loop consumed. -/
def reseedLoop (C : Collab) (rc : Int) (full : Bool) (i : Nat) :
    List (List AbsorbItem) → List Int →
      List Int × Int × List (List AbsorbItem) × List Int × List Nat
  | [], es => ([], 0, [], es, [])
  | p :: ps, es =>
      let e := es.headD 0
      let digest := C.finalizePool p
      if ¬ full ∧ jsAnd rc (jsShl 1 (i : Int)) ≠ 0 then
        (digest, e, [] :: ps, 0 :: es.tail, [i])
      else
        let r := reseedLoop C rc full (i + 1) ps es.tail
        (digest ++ r.1, e + r.2.1, [] :: r.2.2.1, 0 :: r.2.2.2.1, i :: r.2.2.2.2)

/-- `_reseedFromPools(full)` at wall-clock time `now`; `rand` stands for the 16
words of `Math.random` weak randomness stirred into the payload.  Returns the
new state and (instrumentation) the indices of the pools consumed. -/
def reseedFromPools (C : Collab) (st : PrngState) (full : Bool) (now : Int)
    (rand : List Int) : PrngState × List Nat :=
  let nextReseed := now + 30000
  let lp := reseedLoop C st.reseedCount full 0 st.pools st.poolEntropy
  let reseedData := nextReseed :: rand ++ lp.1
  let strength := lp.2.1
  let pools := lp.2.2.1
  let entropy := lp.2.2.2.1
  -- if we used the last pool, push a new one onto the stack
  let grow := st.reseedCount ≥ jsShl 1 (pools.length : Int)
  let pools := if grow then pools ++ [[]] else pools
  let entropy := if grow then entropy ++ [0] else entropy
  let st := { st with
    nextReseed := nextReseed
    pools := pools
    poolEntropy := entropy
    poolStrength := st.poolStrength - strength
    strength := if strength > st.strength then strength else st.strength
    reseedCount := st.reseedCount + 1 }
  (reseedKey C st reseedData, lp.2.2.2.2)

/-- The `for (i = 0; i < nwords; i += 4)` loop of `randomWords`, with an
explicit iteration budget (`fuel`, instantiated to `nwords`, which always
suffices since `i` grows by 4 per iteration).  The last component counts the
`this._gate()` calls the loop itself performs (the mid-burst gates). -/
def rwLoop (C : Collab) : Nat → Nat → Nat → PrngState → List Int → Nat →
    List Int × PrngState × Nat
  | 0, _, _, st, out, gates => (out, st, gates)
  | fuel + 1, i, nwords, st, out, gates =>
      if i < nwords then
        let (st, gates) :=
          if (i + 1) % 65536 = 0 then (gate C st, gates + 1) else (st, gates)
        let r := gen4words C st
        let g := r.1
        rwLoop C fuel (i + 4) nwords r.2
          (out ++ [g.getD 0 0, g.getD 1 0, g.getD 2 0, g.getD 3 0]) gates
      else (out, st, gates)

/-- `randomWords(nwords, paranoia)` at time `now` (`rand` feeds a reseed if one
is triggered).  Returns the produced words or the raised error, the state at
exit, and (instrumentation) the number of mid-stream gates the loop performed;
the final `this._gate()` after the loop is separate and always runs on
success. -/
def randomWords (C : Collab) (st : PrngState) (nwords : Nat) (paranoia : Option Nat)
    (now : Int) (rand : List Int) : Except ExErr (List Int) × PrngState × Nat :=
  let readiness := isReady st paranoia now
  if readiness = 0 then (.error .notReady, st, 0)
  else
    let st :=
      if jsAnd readiness 2 ≠ 0 then
        (reseedFromPools C st (jsAnd readiness 1 = 0) now rand).1
      else st
    let r := rwLoop C nwords 0 nwords st [] 0
    let st := gate C r.2.1
    (.ok (r.1.take nwords), st, r.2.2)

/-- The states reachable from a fresh generator by any interleaving of
`addEntropy`, `_reseedFromPools` and `randomWords` calls. -/
inductive Reachable (C : Collab) : PrngState → Prop
  | init (dp : Nat) : Reachable C (initState dp)
  | add (st : PrngState) (data : EntropyData) (est? : Option Int) (src : String)
      (t : Int) : Reachable C st → Reachable C (addEntropy st data est? src t).st
  | reseed (st : PrngState) (full : Bool) (now : Int) (rand : List Int) :
      Reachable C st → Reachable C (reseedFromPools C st full now rand).1
  | words (st : PrngState) (n : Nat) (p : Option Nat) (now : Int) (rand : List Int) :
      Reachable C st → Reachable C (randomWords C st n p now rand).2.1

/-! ## C1: the mid-burst gate condition is unsatisfiable -/

/-- The loop counter `i` of `randomWords` is always a multiple of 4, so the
source condition `(i + 1) % 65536 === 0` never holds and the loop never
gates. -/
theorem rwLoop_gates (C : Collab) : ∀ (fuel i n : Nat) (st : PrngState) (out : List Int)
    (g : Nat), i % 4 = 0 → (rwLoop C fuel i n st out g).2.2 = g := by
  intro fuel
  induction fuel with
  | zero => intro i n st out g _; rfl
  | succ fuel ih =>
      intro i n st out g hi
      rw [rwLoop]
      by_cases hlt : i < n
      · rw [if_pos hlt, if_neg (by omega : ¬ (i + 1) % 65536 = 0)]
        exact ih (i + 4) n _ _ g (by omega)
      · rw [if_neg hlt]

/-- C1: the code never performs a mid-stream gate.  For every state, every
word count (in particular every `nwords > 65536`) and every collaborator, the
number of `_gate()` calls made inside the generation loop of
`randomWords(nwords, paranoia)` is zero: since `i` steps through multiples of
4, `(i + 1) % 65536` is odd and never 0.  This contradicts the claim (and
`_gate`'s own doc comment, "or every `_MAX_WORDS_PER_BURST` words"), which
demand at least one mid-stream rekey for `nwords` beyond the burst size; only
the final gate after the loop ever runs. -/
theorem c1_no_midstream_gate (C : Collab) (st : PrngState) (nwords : Nat)
    (paranoia : Option Nat) (now : Int) (rand : List Int) :
    (randomWords C st nwords paranoia now rand).2.2 = 0 := by
  rw [randomWords]
  split
  · rfl
  · exact rwLoop_gates C nwords 0 nwords _ [] 0 rfl

/-! ## C4: not-ready failure is total and mutation-free -/

/-- C4: if readiness is `NOT_READY` for the requested paranoia, `randomWords`
fails with the not-ready error, produces no partial output, and returns the
state unchanged; and on a fresh generator (before any `addEntropy`) readiness
is `NOT_READY` for every paranoia level with a nonzero threshold. -/
theorem c4_not_ready :
    (∀ (C : Collab) (st : PrngState) (nwords : Nat) (p : Option Nat) (now : Int)
      (rand : List Int), isReady st p now = 0 →
      randomWords C st nwords p now rand = (.error .notReady, st, 0)) ∧
    (∀ (dp p : Nat) (now : Int), p ≤ 10 → 0 < PARANOIA_LEVELS.getD p 0 →
      isReady (initState dp) (some p) now = 0) := by
  constructor
  · intro C st nwords p now rand h
    rw [randomWords, if_pos h]
  · intro dp p now hp hreq
    rw [isReady]
    simp only [initState, Option.getD_some]
    rw [if_neg (by simp), if_neg (by omega)]

/-- C4 witness: the fresh generator at paranoia 6. -/
theorem c4_not_ready_witness :
    isReady (initState 6) (some 6) 0 = 0 ∧
    0 < PARANOIA_LEVELS.getD 6 0 ∧
    randomWords trivCollab (initState 6) 8 (some 6) 0 [] = (.error .notReady, initState 6, 0) :=
  ⟨by decide, by decide,
    c4_not_ready.1 trivCollab (initState 6) 8 (some 6) 0 [] (by decide)⟩

/-! ## C3: readiness at sufficient strength -/

/-- C3 counterexample: at paranoia 0 the claim fails.  In the fresh state
`strength = 0 ≥ PARANOIA_LEVELS[0] = 0`, yet `isReady(0)` returns
`REQUIRES_RESEED | NOT_READY = 2`, whose READY bit is clear: the code guards
the READY branch with JS truthiness `this._strength && ...`, which is false
for `strength = 0`. -/
theorem c3_cex :
    (initState 6).strength ≥ PARANOIA_LEVELS.getD 0 0 ∧
    isReady (initState 6) (some 0) 0 = 2 ∧
    jsAnd (isReady (initState 6) (some 0) 0) 1 = 0 := by
  refine ⟨by decide, by decide, by decide⟩

/-- C3 (amended): for paranoia `p ≤ 10`, whenever the strength is *nonzero*
and at least `PARANOIA_LEVELS[p]`, `isReady(p)` has the READY bit set, and
has REQUIRES_RESEED set iff pool 0 absorbed more than 80 bits since its last
use and the scheduled reseed time has passed. -/
theorem c3_isReady_ready (st : PrngState) (p : Nat) (now : Int) (hp : p ≤ 10)
    (h0 : st.strength ≠ 0) (hs : st.strength ≥ PARANOIA_LEVELS.getD p 0) :
    jsAnd (isReady st (some p) now) 1 = 1 ∧
    (jsAnd (isReady st (some p) now) 2 = 2 ↔
      (st.poolEntropy.getD 0 0 > 80 ∧ now > st.nextReseed)) := by
  rw [isReady]
  simp only [Option.getD_some]
  rw [if_pos ⟨h0, hs⟩]
  by_cases hc : st.poolEntropy.getD 0 0 > 80 ∧ now > st.nextReseed
  · rw [if_pos hc]
    exact ⟨by decide, ⟨fun _ => hc, fun _ => by decide⟩⟩
  · rw [if_neg hc]
    exact ⟨by decide, ⟨fun habs => absurd habs (by decide), fun hcc => absurd hcc hc⟩⟩

/-- C3 witness: the amended theorem at a concrete strengthened state. -/
theorem c3_isReady_ready_witness :
    ({ initState 6 with strength := 300 } : PrngState).strength ≠ 0 ∧
    ({ initState 6 with strength := 300 } : PrngState).strength ≥ PARANOIA_LEVELS.getD 6 0 ∧
    (jsAnd (isReady { initState 6 with strength := 300 } (some 6) 0) 1 = 1 ∧
      (jsAnd (isReady { initState 6 with strength := 300 } (some 6) 0) 2 = 2 ↔
        (({ initState 6 with strength := 300 } : PrngState).poolEntropy.getD 0 0 > 80 ∧
          (0 : Int) > ({ initState 6 with strength := 300 } : PrngState).nextReseed))) :=
  ⟨by decide, by decide,
    c3_isReady_ready { initState 6 with strength := 300 } 6 0 (by decide) (by decide) (by decide)⟩

/-! ## C5: the logarithmic pool-consumption schedule -/

/-- `1 << k` for small `k`. -/
theorem jsShl_one {k : Nat} (hk : k ≤ 30) : jsShl 1 (k : Int) = ((2 ^ k : Nat) : Int) := by
  have hu1 : u32 1 = 1 := by decide
  have huk : u32 (k : Int) = k := by
    simp only [u32]
    omega
  have hk32 : k % 32 = k := by omega
  have hpow : (2 : Nat) ^ k < 2147483648 := by
    calc (2 : Nat) ^ k ≤ 2 ^ 30 := Nat.pow_le_pow_right (by norm_num) hk
      _ < 2147483648 := by norm_num
  have hsh : (1 : Nat) <<< k = 2 ^ k := by
    rw [Nat.shiftLeft_eq, one_mul]
  simp only [jsShl, shAmt, hu1, huk, hk32, hsh]
  rw [Nat.mod_eq_of_lt (by omega), i32, if_pos hpow]

/-- The break test `reseedCount & (1 << i)` reads bit `i` of `reseedCount`
(in the sub-2^31 range the counter lives in). -/
theorem jsAnd_pow_eq_zero_iff {rc : Int} {k : Nat} (h0 : 0 ≤ rc)
    (h1 : rc < 2147483648) (hk : k ≤ 30) :
    (jsAnd rc (jsShl 1 (k : Int)) = 0 ↔ rc.toNat.testBit k = false) := by
  rw [jsShl_one hk]
  have hurc : u32 rc = rc.toNat := by
    simp only [u32]
    omega
  have hupow : u32 ((2 ^ k : Nat) : Int) = 2 ^ k := by
    have hnat : (2 : Nat) ^ k < 2147483648 := by
      calc (2 : Nat) ^ k ≤ 2 ^ 30 := Nat.pow_le_pow_right (by norm_num) hk
        _ < 2147483648 := by norm_num
    simp only [u32]
    generalize hgen : (2 : Nat) ^ k = m at hnat ⊢
    omega
  have hand : Nat.land rc.toNat (2 ^ k) = (rc.toNat.testBit k).toNat * 2 ^ k := by
    show rc.toNat &&& 2 ^ k = (rc.toNat.testBit k).toNat * 2 ^ k
    exact Nat.and_two_pow rc.toNat k
  simp only [jsAnd, hurc, hupow, hand]
  cases hbit : rc.toNat.testBit k with
  | false =>
      simp only [Bool.toNat_false, Nat.zero_mul, i32]
      norm_num
  | true =>
      simp only [Bool.toNat_true, Nat.one_mul, i32]
      have h2 : (2 : Nat) ^ k < 2147483648 := by
        calc (2 : Nat) ^ k ≤ 2 ^ 30 := Nat.pow_le_pow_right (by norm_num) hk
          _ < 2147483648 := by norm_num
      rw [if_pos h2]
      simp only [Bool.true_eq_false, iff_false]
      intro h
      have hz : (2 : Nat) ^ k = 0 := by exact_mod_cast h
      exact absurd hz (Nat.pos_pow_of_pos _ (by norm_num)).ne'

/-- Membership in the consumed-index trace of the reseed loop (`full = false`):
pool `j` is consumed iff it exists and every lower-indexed break bit is
clear. -/
theorem reseedLoop_consumed (C : Collab) (rc : Int) :
    ∀ (ps : List (List AbsorbItem)) (es : List Int) (i j : Nat),
    (j ∈ (reseedLoop C rc false i ps es).2.2.2.2 ↔
      (i ≤ j ∧ j < i + ps.length ∧
        ∀ k, i ≤ k → k < j → jsAnd rc (jsShl 1 (k : Int)) = 0)) := by
  intro ps
  induction ps with
  | nil =>
      intro es i j
      simp [reseedLoop]
      omega
  | cons p tail ih =>
      intro es i j
      rw [reseedLoop]
      by_cases hstop : jsAnd rc (jsShl 1 (i : Int)) ≠ 0
      · rw [if_pos ⟨by simp, hstop⟩]
        simp only [List.mem_singleton, List.length_cons]
        constructor
        · rintro rfl
          exact ⟨le_refl _, by omega, fun k hk1 hk2 => by omega⟩
        · rintro ⟨hij, hjl, hall⟩
          by_contra hne
          exact hstop (hall i (le_refl _) (by omega))
      · rw [if_neg (by simpa using hstop)]
        push_neg at hstop
        simp only [List.mem_cons, ih es.tail (i + 1) j, List.length_cons]
        constructor
        · rintro (rfl | ⟨h1, h2, h3⟩)
          · exact ⟨le_refl _, by omega, fun k hk1 hk2 => by omega⟩
          · refine ⟨by omega, by omega, fun k hk1 hk2 => ?_⟩
            by_cases hki : k = i
            · subst hki; exact hstop
            · exact h3 k (by omega) hk2
        · rintro ⟨h1, h2, h3⟩
          by_cases hji : j = i
          · exact Or.inl hji
          · exact Or.inr ⟨by omega, by omega, fun k hk1 hk2 => h3 k (by omega) hk2⟩

/-- C5: in `_reseedFromPools(false)`, pool 0 is consumed on every call; pool
`i` is consumed exactly when bits `0 .. i-1` of `reseedCount` are all clear
(so the first pool whose own bit is set is itself consumed and the loop then
stops); consequently over consecutive reseeds pool 1 is drawn exactly when
`reseedCount` is even and pool 2 exactly when it is divisible by 4. -/
theorem c5_reseed_schedule (C : Collab) (st : PrngState) (now : Int) (rand : List Int)
    (hne : 1 ≤ st.pools.length) (hrc0 : 0 ≤ st.reseedCount)
    (hrc1 : st.reseedCount < 2147483648) (hlen : st.pools.length ≤ 31) :
    (0 ∈ (reseedFromPools C st false now rand).2) ∧
    (∀ i, i ∈ (reseedFromPools C st false now rand).2 ↔
      (i < st.pools.length ∧ ∀ j < i, st.reseedCount.toNat.testBit j = false)) ∧
    ((1 ∈ (reseedFromPools C st false now rand).2) ↔
      (1 < st.pools.length ∧ st.reseedCount % 2 = 0)) ∧
    ((2 ∈ (reseedFromPools C st false now rand).2) ↔
      (2 < st.pools.length ∧ st.reseedCount % 4 = 0)) := by
  have hsnd : (reseedFromPools C st false now rand).2
      = (reseedLoop C st.reseedCount false 0 st.pools st.poolEntropy).2.2.2.2 := rfl
  have hchar : ∀ i, i ∈ (reseedFromPools C st false now rand).2 ↔
      (i < st.pools.length ∧ ∀ j < i, st.reseedCount.toNat.testBit j = false) := by
    intro i
    rw [hsnd, reseedLoop_consumed]
    constructor
    · rintro ⟨-, hlt, hall⟩
      refine ⟨by omega, fun j hj => ?_⟩
      have hj30 : j ≤ 30 := by omega
      exact (jsAnd_pow_eq_zero_iff hrc0 hrc1 hj30).mp (hall j (by omega) hj)
    · rintro ⟨hlt, hall⟩
      refine ⟨by omega, by omega, fun k _ hk => ?_⟩
      have hk30 : k ≤ 30 := by omega
      exact (jsAnd_pow_eq_zero_iff hrc0 hrc1 hk30).mpr (hall k hk)
  have hbit0 : (∀ j < 1, st.reseedCount.toNat.testBit j = false) ↔ st.reseedCount % 2 = 0 := by
    constructor
    · intro h
      have := h 0 (by omega)
      rw [Nat.testBit_zero] at this
      simp only [decide_eq_false_iff_not] at this
      omega
    · intro h j hj
      have hj0 : j = 0 := by omega
      subst hj0
      rw [Nat.testBit_zero]
      simp only [decide_eq_false_iff_not]
      omega
  have hbit01 : (∀ j < 2, st.reseedCount.toNat.testBit j = false) ↔ st.reseedCount % 4 = 0 := by
    constructor
    · intro h
      have h0 := h 0 (by omega)
      have h1 := h 1 (by omega)
      rw [Nat.testBit_to_div_mod] at h0 h1
      simp only [decide_eq_false_iff_not] at h0 h1
      norm_num at h0 h1
      omega
    · intro h j hj
      rw [Nat.testBit_to_div_mod]
      simp only [decide_eq_false_iff_not]
      interval_cases j <;> norm_num <;> omega
  refine ⟨?_, hchar, ?_, ?_⟩
  · exact (hchar 0).mpr ⟨by omega, fun j hj => by omega⟩
  · rw [hchar 1, hbit0]
  · rw [hchar 2, hbit01]

/-- C5 witness: three pools at `reseedCount = 2` — pools 0 and 1 are consumed
(bit 0 clear), the loop stops at pool 1 (bit 1 set), pool 2 is skipped. -/
theorem c5_reseed_schedule_witness :
    (1 ≤ ({ initState 6 with
        pools := [[], [], []], poolEntropy := [5, 7, 9], reseedCount := 2 } :
        PrngState).pools.length) ∧
    ((0 ∈ (reseedFromPools trivCollab
        { initState 6 with pools := [[], [], []], poolEntropy := [5, 7, 9], reseedCount := 2 }
        false 0 []).2) ∧
      (∀ i, i ∈ (reseedFromPools trivCollab
        { initState 6 with pools := [[], [], []], poolEntropy := [5, 7, 9], reseedCount := 2 }
        false 0 []).2 ↔
        (i < 3 ∧ ∀ j < i, (2 : Int).toNat.testBit j = false)) ∧
      ((1 ∈ (reseedFromPools trivCollab
        { initState 6 with pools := [[], [], []], poolEntropy := [5, 7, 9], reseedCount := 2 }
        false 0 []).2) ↔ (1 < 3 ∧ (2 : Int) % 2 = 0)) ∧
      ((2 ∈ (reseedFromPools trivCollab
        { initState 6 with pools := [[], [], []], poolEntropy := [5, 7, 9], reseedCount := 2 }
        false 0 []).2) ↔ (2 < 3 ∧ (2 : Int) % 4 = 0))) :=
  ⟨by decide,
    c5_reseed_schedule trivCollab
      { initState 6 with pools := [[], [], []], poolEntropy := [5, 7, 9], reseedCount := 2 }
      0 [] (by decide) (by decide) (by decide) (by decide)⟩

/-! ## C10: the failed `addEntropy` call is not atomic -/

/-- Advancing a round-robin index modulo at least 2 changes it. -/
theorem robin_advance_ne {r L : Int} (hL : 2 ≤ L) (h0 : 0 ≤ r) (h1 : r < L) :
    (r + 1) % L ≠ r := by
  by_cases hlt : r + 1 < L
  · rw [Int.emod_eq_of_lt (by omega) hlt]
    omega
  · rw [show r + 1 = L by omega, Int.emod_self]
    omega

/-- C10 counterexample: on the fresh generator (a single pool), a failed
`addEntropy` call advances the per-source robin modulo the pool count 1,
which leaves it at 0 — the subsequent call from the same source targets the
same pool 0, so the failed call does *not* change which pool a subsequent
`addEntropy` targets. -/
theorem c10_cex :
    (addEntropy (initState 6) .other none "user" 0).err = some .bug ∧
    (addEntropy (initState 6) .other none "user" 0).robinUsed = 0 ∧
    (addEntropy (addEntropy (initState 6) .other none "user" 0).st
      (.num 1) (some 1) "user" 0).robinUsed = 0 := by
  refine ⟨by decide, by decide, by decide⟩

/-- C10 (amended): when `addEntropy` fails with the bug error, the call has
already mutated per-source state: the collector id is assigned to a
first-seen source, and the source's round-robin pool index has been advanced
modulo the pool count — which changes the pool a subsequent call from that
source targets whenever more than one pool exists (with a single pool the
index is unchanged, `(r+1) mod 1 = 0`).  The event id counter, the pools, the
entropy counters and all generator key material are unchanged, and no event
fires. -/
theorem c10_bug_not_atomic (st : PrngState) (data : EntropyData) (est? : Option Int)
    (src : String) (t : Int) (source : String)
    (hsource : source = if src = "" then "user" else src)
    (herr : (addEntropy st data est? src t).err = some .bug) :
    (addEntropy st data est? src t).events = [] ∧
    (addEntropy st data est? src t).st.pools = st.pools ∧
    (addEntropy st data est? src t).st.poolEntropy = st.poolEntropy ∧
    (addEntropy st data est? src t).st.poolStrength = st.poolStrength ∧
    (addEntropy st data est? src t).st.eventId = st.eventId ∧
    (addEntropy st data est? src t).st.strength = st.strength ∧
    (addEntropy st data est? src t).st.key = st.key ∧
    (addEntropy st data est? src t).st.counter = st.counter ∧
    (addEntropy st data est? src t).st.cipher = st.cipher ∧
    (addEntropy st data est? src t).st.nextReseed = st.nextReseed ∧
    (addEntropy st data est? src t).st.reseedCount = st.reseedCount ∧
    (addEntropy st data est? src t).robinUsed = (st.robins source).getD 0 ∧
    (addEntropy st data est? src t).st.robins source
      = some (((st.robins source).getD 0 + 1) % (st.pools.length : Int)) ∧
    (∀ s2, s2 ≠ source → (addEntropy st data est? src t).st.robins s2 = st.robins s2) ∧
    (st.collectorIds source = none →
      (addEntropy st data est? src t).st.collectorIds source = some st.collectorIdNext ∧
      (addEntropy st data est? src t).st.collectorIdNext = st.collectorIdNext + 1) ∧
    (∀ v, st.collectorIds source = some v →
      (addEntropy st data est? src t).st.collectorIds = st.collectorIds ∧
      (addEntropy st data est? src t).st.collectorIdNext = st.collectorIdNext) ∧
    (2 ≤ st.pools.length → 0 ≤ (st.robins source).getD 0 →
      (st.robins source).getD 0 < (st.pools.length : Int) →
      ((st.robins source).getD 0 + 1) % (st.pools.length : Int)
        ≠ (st.robins source).getD 0) := by
  subst hsource
  cases data with
  | num n => simp [addEntropy] at herr
  | u32arr xs => simp [addEntropy] at herr
  | str s => simp [addEntropy] at herr
  | arr xs =>
      by_cases hall : xs.all (fun x => x.isSome) = true
      · simp [addEntropy, hall] at herr
      · rw [Bool.not_eq_true] at hall
        refine ⟨?_, ?_, ?_, ?_, ?_, ?_, ?_, ?_, ?_, ?_, ?_, ?_, ?_, ?_, ?_, ?_, ?_⟩ <;>
          (try simp only [addEntropy, hall, Bool.false_eq_true, if_false]) <;>
          try rfl
        · intro s2 hs2
          rw [if_neg hs2]
        · intro hnone
          simp [hnone]
        · intro v hv
          simp [hv]
        · intro hL h0 h1
          exact robin_advance_ne (by exact_mod_cast (by omega : (2 : Int) ≤ st.pools.length)) h0 h1
  | objOther =>
      refine ⟨?_, ?_, ?_, ?_, ?_, ?_, ?_, ?_, ?_, ?_, ?_, ?_, ?_, ?_, ?_, ?_, ?_⟩ <;>
        (try simp only [addEntropy]) <;>
        try rfl
      · intro s2 hs2
        rw [if_neg hs2]
      · intro hnone
        simp [hnone]
      · intro v hv
        simp [hv]
      · intro hL h0 h1
        exact robin_advance_ne (by exact_mod_cast (by omega : (2 : Int) ≤ st.pools.length)) h0 h1
  | other =>
      refine ⟨?_, ?_, ?_, ?_, ?_, ?_, ?_, ?_, ?_, ?_, ?_, ?_, ?_, ?_, ?_, ?_, ?_⟩ <;>
        (try simp only [addEntropy]) <;>
        try rfl
      · intro s2 hs2
        rw [if_neg hs2]
      · intro hnone
        simp [hnone]
      · intro v hv
        simp [hv]
      · intro hL h0 h1
        exact robin_advance_ne (by exact_mod_cast (by omega : (2 : Int) ≤ st.pools.length)) h0 h1

/-- C10 witness: a failed call on a two-pool state from a fresh source. -/
theorem c10_bug_not_atomic_witness :
    ("mouse" : String) = (if ("mouse" : String) = "" then "user" else "mouse") ∧
    (addEntropy { initState 6 with pools := [[], []], poolEntropy := [0, 0] }
      .other none "mouse" 0).err = some .bug ∧
    (addEntropy { initState 6 with pools := [[], []], poolEntropy := [0, 0] }
      .other none "mouse" 0).st.eventId
      = ({ initState 6 with pools := [[], []], poolEntropy := [0, 0] } : PrngState).eventId ∧
    (addEntropy { initState 6 with pools := [[], []], poolEntropy := [0, 0] }
      .other none "mouse" 0).st.robins "mouse" = some 1 := by
  have h := c10_bug_not_atomic
    { initState 6 with pools := [[], []], poolEntropy := [0, 0] }
    .other none "mouse" 0 "mouse" (by decide) (by decide)
  refine ⟨by decide, by decide, h.2.2.2.2.1, ?_⟩
  have hr := h.2.2.2.2.2.2.2.2.2.2.2.2.1
  simpa using hr

/-! ## C9: `poolStrength` equals the sum of the per-pool entropy counters -/

/-- The bookkeeping invariant maintained by every generator operation:
`poolStrength` is the sum of the per-pool counters, the pool and counter
lists stay aligned and nonempty, and every stored robin indexes a pool. -/
def PoolInv (st : PrngState) : Prop :=
  st.poolStrength = st.poolEntropy.sum ∧
  st.pools.length = st.poolEntropy.length ∧
  1 ≤ st.pools.length ∧
  ∀ s v, st.robins s = some v → 0 ≤ v ∧ v < (st.pools.length : Int)

theorem sum_set_add (l : List Int) : ∀ i : Nat, i < l.length →
    ∀ e : Int, (l.set i (l.getD i 0 + e)).sum = l.sum + e := by
  induction l with
  | nil =>
      intro i h
      simp at h
  | cons x t ih =>
      intro i h e
      cases i with
      | zero =>
          simp only [List.set_cons_zero, List.getD_cons_zero, List.sum_cons]
          ring
      | succ j =>
          simp only [List.set_cons_succ, List.getD_cons_succ, List.sum_cons]
          rw [ih j (by simpa using h) e]
          ring

/-- The common successful-`addEntropy` state shape preserves `PoolInv`. -/
theorem PoolInv_mk (st : PrngState) (h : PoolInv st) (source : String)
    (pools2 : List (List AbsorbItem)) (eventId2 cnext : Int)
    (cids : String → Option Int) (est : Int)
    (hlen : pools2.length = st.pools.length) :
    PoolInv { st with
      robins := fun s => if s = source then
          some (((st.robins source).getD 0 + 1) % (st.pools.length : Int)) else st.robins s
      collectorIds := cids
      collectorIdNext := cnext
      pools := pools2
      eventId := eventId2
      poolEntropy := st.poolEntropy.set ((st.robins source).getD 0).toNat
        (st.poolEntropy.getD ((st.robins source).getD 0).toNat 0 + est)
      poolStrength := st.poolStrength + est } := by
  obtain ⟨hsum, hlen2, hpos, hrb⟩ := h
  have hbound : ((st.robins source).getD 0).toNat < st.poolEntropy.length := by
    cases e : st.robins source with
    | none =>
        simp only [e, Option.getD_none, Int.toNat_zero]
        omega
    | some v =>
        have := hrb source v e
        simp only [e, Option.getD_some]
        omega
  refine ⟨?_, ?_, ?_, ?_⟩
  · show st.poolStrength + est = (st.poolEntropy.set _ _).sum
    rw [sum_set_add _ _ hbound, hsum]
  · show pools2.length = (st.poolEntropy.set _ _).length
    rw [List.length_set, hlen, hlen2]
  · show 1 ≤ pools2.length
    omega
  · intro s v hv
    show 0 ≤ v ∧ v < (pools2.length : Int)
    have hv1 : (if s = source then
        some (((st.robins source).getD 0 + 1) % (st.pools.length : Int))
      else st.robins s) = some v := hv
    by_cases hs : s = source
    · rw [if_pos hs] at hv1
      have hv2 : ((st.robins source).getD 0 + 1) % (st.pools.length : Int) = v :=
        Option.some_injective _ hv1
      have hL : (0 : Int) < (st.pools.length : Int) := by exact_mod_cast hpos
      rw [hlen]
      constructor
      · rw [← hv2]
        exact Int.emod_nonneg _ (by omega)
      · rw [← hv2]
        exact Int.emod_lt_of_pos _ hL
    · rw [if_neg hs] at hv1
      have := hrb s v hv1
      rw [hlen]
      exact this

/-- The error-exit state of `addEntropy` (only `robins`, `collectorIds`,
`collectorIdNext` changed) preserves `PoolInv`. -/
theorem PoolInv_err (st : PrngState) (h : PoolInv st) (source : String)
    (cnext : Int) (cids : String → Option Int) :
    PoolInv { st with
      robins := fun s => if s = source then
          some (((st.robins source).getD 0 + 1) % (st.pools.length : Int)) else st.robins s
      collectorIds := cids
      collectorIdNext := cnext } := by
  obtain ⟨hsum, hlen2, hpos, hrb⟩ := h
  refine ⟨hsum, hlen2, hpos, ?_⟩
  intro s v hv
  have hv1 : (if s = source then
      some (((st.robins source).getD 0 + 1) % (st.pools.length : Int))
    else st.robins s) = some v := hv
  show 0 ≤ v ∧ v < (st.pools.length : Int)
  by_cases hs : s = source
  · rw [if_pos hs] at hv1
    have hv2 : ((st.robins source).getD 0 + 1) % (st.pools.length : Int) = v :=
      Option.some_injective _ hv1
    have hL : (0 : Int) < (st.pools.length : Int) := by exact_mod_cast hpos
    exact ⟨by rw [← hv2]; exact Int.emod_nonneg _ (by omega),
      by rw [← hv2]; exact Int.emod_lt_of_pos _ hL⟩
  · rw [if_neg hs] at hv1
    exact hrb s v hv1

theorem addEntropy_PoolInv (st : PrngState) (data : EntropyData) (est? : Option Int)
    (src : String) (t : Int) (h : PoolInv st) :
    PoolInv (addEntropy st data est? src t).st := by
  cases data with
  | num n =>
      exact PoolInv_mk st h _ _ _ _ _ _ (by simp [updatePool])
  | u32arr xs =>
      exact PoolInv_mk st h _ _ _ _ _ _ (by simp [updatePool])
  | str s =>
      exact PoolInv_mk st h _ _ _ _ _ _ (by simp [updatePool])
  | arr xs =>
      by_cases hall : xs.all (fun x => x.isSome) = true
      · have hgoal : (addEntropy st (.arr xs) est? src t).st
            = (addEntropy st (.arr xs) est? src t).st := rfl
        simp only [addEntropy, hall, if_true]
        exact PoolInv_mk st h _ _ _ _ _ _ (by simp [updatePool])
      · rw [Bool.not_eq_true] at hall
        simp only [addEntropy, hall, Bool.false_eq_true, if_false]
        exact PoolInv_err st h _ _ _
  | objOther => exact PoolInv_err st h _ _ _
  | other => exact PoolInv_err st h _ _ _

/-- Lengths and entropy sum through the reseed loop: the pool count is
preserved and the consumed strength is exactly the entropy drained. -/
theorem reseedLoop_fields (C : Collab) (rc : Int) (full : Bool) :
    ∀ (ps : List (List AbsorbItem)) (es : List Int) (i : Nat), es.length = ps.length →
    ((reseedLoop C rc full i ps es).2.2.1.length = ps.length ∧
     (reseedLoop C rc full i ps es).2.2.2.1.length = es.length ∧
     (reseedLoop C rc full i ps es).2.2.2.1.sum
       = es.sum - (reseedLoop C rc full i ps es).2.1) := by
  intro ps
  induction ps with
  | nil =>
      intro es i hlen
      simp [reseedLoop]
  | cons p tail ih =>
      intro es i hlen
      cases es with
      | nil => simp at hlen
      | cons e0 rest =>
          rw [reseedLoop]
          by_cases hstop : ¬ full ∧ jsAnd rc (jsShl 1 (i : Int)) ≠ 0
          · rw [if_pos hstop]
            refine ⟨by simp, by simp, ?_⟩
            simp only [List.headD_cons, List.tail_cons, List.sum_cons]
            ring
          · rw [if_neg hstop]
            have hrec := ih rest (i + 1) (by simpa using hlen)
            refine ⟨by simp [hrec.1], by simp [hrec.2.1], ?_⟩
            simp only [List.headD_cons, List.tail_cons, List.sum_cons]
            rw [hrec.2.2]
            ring

theorem PoolInv_reseedKey (C : Collab) (st : PrngState) (d : List Int)
    (h : PoolInv st) : PoolInv (reseedKey C st d) := by
  obtain ⟨h1, h2, h3, h4⟩ := h
  exact ⟨h1, h2, h3, h4⟩

theorem reseedFromPools_PoolInv (C : Collab) (st : PrngState) (full : Bool)
    (now : Int) (rand : List Int) (h : PoolInv st) :
    PoolInv (reseedFromPools C st full now rand).1 := by
  obtain ⟨hsum, hlen, hpos, hrb⟩ := h
  obtain ⟨hf1, hf2, hf3⟩ :=
    reseedLoop_fields C st.reseedCount full st.pools st.poolEntropy 0 hlen.symm
  rw [reseedFromPools]
  apply PoolInv_reseedKey
  refine ⟨?_, ?_, ?_, ?_⟩
  · dsimp only
    split_ifs with hg
    · rw [List.sum_append, hf3, hsum]
      simp
    · rw [hf3, hsum]
  · dsimp only
    split_ifs with hg
    · simp only [List.length_append, hf1, hf2, hlen]
      simp
    · rw [hf1, hf2, hlen]
  · dsimp only
    split_ifs with hg
    · simp only [List.length_append]
      omega
    · rw [hf1]
      exact hpos
  · intro s v hv
    dsimp only at hv ⊢
    have hb := hrb s v hv
    refine ⟨hb.1, ?_⟩
    split_ifs with hg
    · simp only [List.length_append, hf1]
      have h2 := hb.2
      push_cast
      omega
    · rw [hf1]
      exact hb.2

theorem PoolInv_gen4 (C : Collab) (st : PrngState) (h : PoolInv st) :
    PoolInv (gen4words C st).2 := by
  rw [gen4words]
  cases e : st.cipher with
  | none =>
      simp only [e]
      exact h
  | some k =>
      simp only [e]
      exact h

theorem PoolInv_gate (C : Collab) (st : PrngState) (h : PoolInv st) :
    PoolInv (gate C st) :=
  PoolInv_gen4 C _ (PoolInv_gen4 C st h)

theorem PoolInv_rwLoop (C : Collab) : ∀ (fuel i n : Nat) (st : PrngState)
    (out : List Int) (g : Nat), PoolInv st → PoolInv (rwLoop C fuel i n st out g).2.1 := by
  intro fuel
  induction fuel with
  | zero => intro i n st out g h; exact h
  | succ fuel ih =>
      intro i n st out g h
      rw [rwLoop]
      by_cases hlt : i < n
      · rw [if_pos hlt]
        by_cases hgate : (i + 1) % 65536 = 0
        · rw [if_pos hgate]
          exact ih _ _ _ _ _ (PoolInv_gen4 C _ (PoolInv_gate C st h))
        · rw [if_neg hgate]
          exact ih _ _ _ _ _ (PoolInv_gen4 C st h)
      · rw [if_neg hlt]
        exact h

theorem randomWords_PoolInv (C : Collab) (st : PrngState) (n : Nat) (p : Option Nat)
    (now : Int) (rand : List Int) (h : PoolInv st) :
    PoolInv (randomWords C st n p now rand).2.1 := by
  rw [randomWords]
  by_cases hr : isReady st p now = 0
  · rw [if_pos hr]
    exact h
  · rw [if_neg hr]
    by_cases hrs : jsAnd (isReady st p now) 2 ≠ 0
    · rw [if_pos hrs]
      exact PoolInv_gate C _ (PoolInv_rwLoop C n 0 n _ [] 0
        (reseedFromPools_PoolInv C st _ now rand h))
    · rw [if_neg hrs]
      exact PoolInv_gate C _ (PoolInv_rwLoop C n 0 n _ [] 0 h)

theorem reach_PoolInv (C : Collab) (st : PrngState) (h : Reachable C st) : PoolInv st := by
  induction h with
  | init dp =>
      exact ⟨rfl, rfl, le_refl 1, fun s v hv => by simp [initState] at hv⟩
  | add st data est? src t _ ih => exact addEntropy_PoolInv st data est? src t ih
  | reseed st full now rand _ ih => exact reseedFromPools_PoolInv C st full now rand ih
  | words st n p now rand _ ih => exact randomWords_PoolInv C st n p now rand ih

/-- C9: at every reachable generator state — the initial state, and after any
interleaving of `addEntropy` (successful or failing), `_reseedFromPools` and
`randomWords` calls — the global `poolStrength` counter equals the sum of the
per-pool entropy counters. -/
theorem c9_poolStrength_sum (C : Collab) (st : PrngState) (h : Reachable C st) :
    st.poolStrength = st.poolEntropy.sum :=
  (reach_PoolInv C st h).1

/-- C9 witness: the invariant at the state reached by one 48-bit
`addEntropy` call on a fresh generator. -/
theorem c9_poolStrength_sum_witness :
    (addEntropy (initState 6) (.num 5) (some 48) "mouse" 0).st.poolStrength
      = (addEntropy (initState 6) (.num 5) (some 48) "mouse" 0).st.poolEntropy.sum :=
  c9_poolStrength_sum trivCollab _
    (Reachable.add (initState 6) (.num 5) (some 48) "mouse" 0 (Reachable.init 6))

/-! ## C2: seeding a fresh generator with repeated 48-bit contributions -/

/-- The C2 scenario: a fresh default-paranoia-6 generator fed repeated
`addEntropy(number, 48, "mouse")` calls at time 0.  Returns the state and the
per-call event lists.  (`addEntropy` calls no collaborator, so the run is a
closed computation.) -/
def runC2 : Nat → PrngState × List (List Event)
  | 0 => (initState 6, [])
  | n + 1 =>
      let r := runC2 n
      let o := addEntropy r.1 (.num 0) (some 48) "mouse" 0
      (o.st, r.2 ++ [o.events])

/-- The events the `k`-th call (0-indexed) of the C2 scenario fires. -/
def evAt (k : Nat) : List Event :=
  if k + 1 = 6 then [Event.seeded 288, Event.progress]
  else if k + 1 < 6 then [Event.progress] else []

/-- Recognizer for `seeded` events. -/
def isSeededEv : Event → Bool
  | .seeded _ => true
  | .progress => false

/-- With zero strength, readiness at the default paranoia 6 is decided by
`poolStrength` against the 256-bit threshold. -/
theorem isReady_zero_strength (st : PrngState) (now : Int) (hstr : st.strength = 0)
    (hdp : st.defaultParanoia = 6) :
    isReady st none now = (if 256 ≤ st.poolStrength then 2 else 0) := by
  rw [isReady]
  simp only [Option.getD_none, hdp, hstr]
  rw [if_neg (by simp)]
  simp only [PARANOIA_LEVELS]
  norm_num

/-- One `addEntropy(number, 48)` step from a one-pool, zero-strength state:
bookkeeping and fired events. -/
theorem addEntropy_num_step (st : PrngState) (S : Int)
    (hstr : st.strength = 0) (hps : st.poolStrength = S)
    (hpe : st.poolEntropy = [S]) (hpl : st.pools.length = 1)
    (hdp : st.defaultParanoia = 6) (hrb : (st.robins "mouse").getD 0 = 0) :
    (addEntropy st (.num 0) (some 48) "mouse" 0).err = none ∧
    (addEntropy st (.num 0) (some 48) "mouse" 0).st.strength = 0 ∧
    (addEntropy st (.num 0) (some 48) "mouse" 0).st.poolStrength = S + 48 ∧
    (addEntropy st (.num 0) (some 48) "mouse" 0).st.poolEntropy = [S + 48] ∧
    (addEntropy st (.num 0) (some 48) "mouse" 0).st.pools.length = 1 ∧
    (addEntropy st (.num 0) (some 48) "mouse" 0).st.defaultParanoia = 6 ∧
    ((addEntropy st (.num 0) (some 48) "mouse" 0).st.robins "mouse").getD 0 = 0 ∧
    (addEntropy st (.num 0) (some 48) "mouse" 0).events =
      (if 256 ≤ S then []
       else if 256 ≤ S + 48 then [Event.seeded (max 0 (S + 48)), Event.progress]
       else [Event.progress]) := by
  have hm : (if ("mouse" : String) = "" then "user" else "mouse") = "mouse" := by decide
  refine ⟨?_, ?_, ?_, ?_, ?_, ?_, ?_, ?_⟩
  · simp only [addEntropy]
  · simp only [addEntropy]
    exact hstr
  · simp only [addEntropy, Option.getD_some]
    rw [hps]
  · simp only [addEntropy, hm, hrb, hpe, Option.getD_some]
    norm_num
  · simp only [addEntropy, updatePool, hm, hrb]
    rw [List.length_set, hpl]
  · simp only [addEntropy]
    exact hdp
  · simp only [addEntropy, hm, hrb, hpl]
    norm_num
  · simp only [addEntropy, hm, hrb]
    simp only [isReady_zero_strength, hstr, hdp]
    simp only [Option.getD_some, hps, hstr]
    by_cases hc1 : 256 ≤ S
    · rw [if_pos hc1, if_pos hc1]
      rw [if_neg (by norm_num : ¬ (2 : Int) = 0)]
    · rw [if_neg hc1, if_neg hc1]
      rw [if_pos rfl]
      by_cases hc2 : 256 ≤ S + 48
      · rw [if_pos hc2, if_pos hc2]
        rw [if_pos (by norm_num : ¬ (2 : Int) = 0)]
        rfl
      · rw [if_neg hc2, if_neg hc2]
        rw [if_neg (by norm_num : ¬ ¬ (0 : Int) = 0)]
        rfl

/-- The state and event-trace invariant of the C2 run. -/
theorem runC2_inv (n : Nat) :
    (runC2 n).1.strength = 0 ∧ (runC2 n).1.poolStrength = 48 * (n : Int) ∧
    (runC2 n).1.poolEntropy = [48 * (n : Int)] ∧ (runC2 n).1.pools.length = 1 ∧
    (runC2 n).1.defaultParanoia = 6 ∧ ((runC2 n).1.robins "mouse").getD 0 = 0 ∧
    (runC2 n).2 = (List.range n).map evAt := by
  induction n with
  | zero =>
      refine ⟨rfl, by norm_num [runC2, initState], by norm_num [runC2, initState],
        rfl, rfl, rfl, rfl⟩
  | succ n ih =>
      obtain ⟨h1, h2, h3, h4, h5, h6, h7⟩ := ih
      have step := addEntropy_num_step (runC2 n).1 (48 * (n : Int)) h1 h2 h3 h4 h5 h6
      obtain ⟨s1, s2, s3, s4, s5, s6, s7, s8⟩ := step
      have hst : (runC2 (n + 1)).1 = (addEntropy (runC2 n).1 (.num 0) (some 48) "mouse" 0).st :=
        rfl
      have hev : (runC2 (n + 1)).2
          = (runC2 n).2 ++ [(addEntropy (runC2 n).1 (.num 0) (some 48) "mouse" 0).events] := rfl
      refine ⟨?_, ?_, ?_, ?_, ?_, ?_, ?_⟩
      · rw [hst]; exact s2
      · rw [hst, s3]; push_cast; ring
      · rw [hst, s4]; norm_num; push_cast; ring
      · rw [hst]; exact s5
      · rw [hst]; exact s6
      · rw [hst]; exact s7
      · rw [hev, h7, s8, List.range_succ, List.map_append]
        congr 1
        simp only [List.map_cons, List.map_nil]
        have hcases : evAt n = (if 256 ≤ (48 * n : Int) then []
            else if 256 ≤ (48 * n : Int) + 48 then
              [Event.seeded (max 0 ((48 * n : Int) + 48)), Event.progress]
            else [Event.progress]) := by
          rw [evAt]
          by_cases hn6 : n + 1 = 6
          · have : n = 5 := by omega
            subst this
            norm_num
          · rw [if_neg hn6]
            by_cases hlt : n + 1 < 6
            · rw [if_pos hlt, if_neg (by push_cast; omega), if_neg (by push_cast; omega)]
            · rw [if_neg hlt, if_pos (by push_cast; omega)]
        rw [hcases]

/-- C2 counterexample: after six 48-bit contributions (`poolStrength` first
reaches 256 at the sixth call, 288 ≥ 256 > 240), `isReady(6)` returns
`REQUIRES_RESEED | NOT_READY = 2` — a status that does *not* contain the READY
flag, contradicting the claim that the status becomes READY-containing; the
single `seeded 288` event does fire at exactly that call. -/
theorem c2_cex :
    (runC2 5).1.poolStrength = 240 ∧
    (runC2 6).1.poolStrength = 288 ∧
    isReady (runC2 6).1 (some 6) 0 = 2 ∧
    jsAnd (isReady (runC2 6).1 (some 6) 0) 1 = 0 ∧
    (runC2 6).2.flatten.countP isSeededEv = 1 ∧
    (runC2 6).2.getD 5 [] = [Event.seeded 288, Event.progress] := by
  refine ⟨by decide, by decide, by decide, by decide, by decide, by decide⟩

/-- C2 (amended): feeding the fresh paranoia-6 generator 48 estimated bits per
call from one source, the `seeded` event fires exactly once, at the sixth
call — the first at which cumulative `poolStrength` reaches 256 — with
argument `max(strength, poolStrength) = 288`, and never before or after; at
that point `isReady(6)` flips from `NOT_READY` to the non-`NOT_READY` status
`REQUIRES_RESEED | NOT_READY = 2` (the READY bit stays clear until an actual
reseed raises `strength`). -/
theorem c2_seeded_once (n : Nat) :
    ((runC2 n).2 = (List.range n).map evAt) ∧
    ((runC2 n).2.flatten.countP isSeededEv = if 6 ≤ n then 1 else 0) ∧
    ((runC2 n).2.getD 5 [] = if 6 ≤ n then [Event.seeded 288, Event.progress] else []) ∧
    (isReady (runC2 n).1 (some 6) 0 = if 6 ≤ n then 2 else 0) ∧
    (jsAnd (isReady (runC2 n).1 (some 6) 0) 1 = 0) := by
  obtain ⟨h1, h2, h3, h4, h5, h6, h7⟩ := runC2_inv n
  have hcount : ∀ m : Nat, ((List.range m).map evAt).flatten.countP isSeededEv
      = if 6 ≤ m then 1 else 0 := by
    intro m
    induction m with
    | zero => rfl
    | succ m ihm =>
        rw [List.range_succ, List.map_append, List.flatten_append, List.countP_append, ihm]
        have : (([evAt m] : List (List Event)).flatten.countP isSeededEv)
            = if m + 1 = 6 then 1 else 0 := by
          rw [evAt]
          by_cases hm : m + 1 = 6
          · rw [if_pos hm, if_pos hm]
            rfl
          · rw [if_neg hm, if_neg hm]
            by_cases hlt : m + 1 < 6
            · rw [if_pos hlt]
              rfl
            · rw [if_neg hlt]
              rfl
        simp only [List.map_cons, List.map_nil]
        rw [this]
        by_cases hm : m + 1 = 6
        · rw [if_pos hm, if_neg (by omega), if_pos (by omega)]
        · by_cases h6m : 6 ≤ m
          · rw [if_pos h6m, if_neg hm, if_pos (by omega)]
          · rw [if_neg h6m, if_neg hm, if_neg (by omega)]
  have hready : isReady (runC2 n).1 (some 6) 0 = if 6 ≤ n then 2 else 0 := by
    rw [isReady]
    simp only [Option.getD_some, h1, h2]
    rw [if_neg (by simp)]
    simp only [PARANOIA_LEVELS]
    norm_num
    by_cases h6n : 6 ≤ n
    · rw [if_pos (by push_cast; omega), if_pos h6n]
    · rw [if_neg (by push_cast; omega), if_neg h6n]
  refine ⟨h7, by rw [h7, hcount], ?_, hready, ?_⟩
  · by_cases h6n : 6 ≤ n
    · rw [h7, if_pos h6n, List.getD_eq_getElem?_getD, List.getElem?_map,
        List.getElem?_range (by omega : 5 < n)]
      rfl
    · have hlen : ((List.range n).map evAt).length ≤ 5 := by
        rw [List.length_map, List.length_range]
        omega
      rw [h7, if_neg h6n, List.getD_eq_getElem?_getD, List.getElem?_eq_none hlen]
      rfl
  · rw [hready]
    by_cases h6n : 6 ≤ n
    · rw [if_pos h6n]; decide
    · rw [if_neg h6n]; decide

/-! ## Arithmetic facts about the JS word operations -/

theorem u32_lt (x : Int) : u32 x < 4294967296 := by
  simp only [u32]
  omega

theorem u32_eq_of_bounds {x : Int} (h0 : 0 ≤ x) (h1 : x < 4294967296) :
    (u32 x : Int) = x := by
  simp only [u32]
  omega

theorem i32_bounds {n : Nat} (h : n < 4294967296) :
    -2147483648 ≤ i32 n ∧ i32 n < 2147483648 := by
  simp only [i32]
  split <;> omega

theorem u32_i32 {n : Nat} (h : n < 4294967296) : u32 (i32 n) = n := by
  simp only [i32, u32]
  split <;> omega

theorem jsToInt32_bounds (x : Int) :
    -2147483648 ≤ jsToInt32 x ∧ jsToInt32 x < 2147483648 :=
  i32_bounds (u32_lt x)

theorem jsToInt32_eq_of_bounds {x : Int} (h0 : -2147483648 ≤ x) (h1 : x < 2147483648) :
    jsToInt32 x = x := by
  simp only [jsToInt32, u32, i32]
  split <;> omega

namespace BitArray

theorem gp_small {x : Int} (h0 : -549755813888 ≤ x) (h1 : x < 549755813888) :
    getPartial x = 32 := by
  have hz : (2 * x + 1099511627776).fdiv 2199023255552 = 0 := by
    rw [Int.fdiv_eq_ediv _ (by norm_num)]
    exact Int.ediv_eq_zero_of_lt (by omega) (by omega)
  simp only [getPartial, hz]
  rfl

theorem gp_tag {t b : Int} (ht1 : 1 ≤ t) (ht2 : t ≤ 31)
    (hb0 : -2147483648 ≤ b) (hb1 : b < 2147483648) :
    getPartial (b + t * 1099511627776) = t := by
  have he : 2 * (b + t * 1099511627776) + 1099511627776 =
      (2 * b + 1099511627776) + t * 2199023255552 := by ring
  have hz : (2 * b + 1099511627776) / 2199023255552 = 0 :=
    Int.ediv_eq_zero_of_lt (by omega) (by omega)
  have hr : (2 * (b + t * 1099511627776) + 1099511627776).fdiv 2199023255552 = t := by
    rw [Int.fdiv_eq_ediv _ (by norm_num), he,
      Int.add_mul_ediv_right _ _ (by norm_num : (2199023255552 : Int) ≠ 0), hz]
    omega
  simp only [getPartial, hr]
  omega

theorem mkPartial_true_gp {t : Int} (v : Int) (ht1 : 1 ≤ t) (ht2 : t ≤ 31) :
    getPartial (mkPartial t v true) = t := by
  have hb := jsToInt32_bounds v
  simp only [mkPartial, if_pos, if_neg (by omega : ¬ t = 32)]
  exact gp_tag ht1 ht2 hb.1 hb.2

theorem mkPartial_zero_gp (v : Int) : getPartial (mkPartial 0 v true) = 32 := by
  have hb := jsToInt32_bounds v
  have he : mkPartial 0 v true = jsToInt32 v := by norm_num [mkPartial]
  rw [he]
  exact gp_small (by omega) (by omega)

theorem land_31 (m : Nat) : Nat.land m 31 = m % 32 := by
  show m &&& 31 = m % 32
  apply Nat.eq_of_testBit_eq
  intro i
  have h31 : (31 : Nat) = 2 ^ 5 - 1 := by norm_num
  have h32 : (32 : Nat) = 2 ^ 5 := by norm_num
  rw [Nat.testBit_land, h31, h32, Nat.testBit_two_pow_sub_one, Nat.testBit_mod_two_pow,
    Bool.and_comm]

theorem jsAnd_31 {x : Int} (h0 : 0 ≤ x) (h1 : x < 4294967296) :
    jsAnd x 31 = x % 32 := by
  have hu : (u32 x : Int) = x := u32_eq_of_bounds h0 h1
  have hu31 : u32 31 = 31 := by decide
  simp only [jsAnd, hu31, land_31, i32]
  rw [if_pos (by omega : u32 x % 32 < 2147483648)]
  omega

theorem lastWordB_gp {w : Int} (h : lastWordB w = true) :
    1 ≤ getPartial w ∧ getPartial w ≤ 32 := by
  simp only [lastWordB, fullWordB, Bool.or_eq_true, Bool.and_eq_true, decide_eq_true_eq] at h
  rcases h with h | h
  · rw [gp_small (by omega) (by omega)]
    omega
  · omega

theorem validBA_last {a : List Int} (hv : validBA a = true) (h : a ≠ []) :
    lastWordB (a.getLastD 0) = true := by
  simp only [validBA, Bool.and_eq_true] at hv
  rcases hv with ⟨-, hv⟩
  cases e : a.getLast? with
  | none => exact absurd (List.getLast?_eq_none_iff.mp e) h
  | some w =>
      rw [e] at hv
      rw [List.getLastD_eq_getLast?, e]
      exact hv

theorem validBA_last_gp {a : List Int} (hv : validBA a = true) (h : a ≠ []) :
    1 ≤ getPartial (a.getLastD 0) ∧ getPartial (a.getLastD 0) ≤ 32 :=
  lastWordB_gp (validBA_last hv h)

/-! ## Structure of `_shiftRight`'s loops -/

theorem srPre_small {s : Int} (h : ¬ 32 ≤ s) (c : Int) (out : List Int) :
    srPre s c out = (s, c, out) := by
  rw [srPre]
  simp [h]

theorem srMain_len (a : List Int) : ∀ (s c : Int) (out : List Int),
    (srMain a s c out).1.length = out.length + a.length := by
  induction a with
  | nil => intro s c out; simp [srMain]
  | cons w rest ih =>
      intro s c out
      simp only [srMain, ih]
      simp
      omega

theorem bitLength_append_last (xs : List Int) (w : Int) :
    bitLength (xs ++ [w]) = 32 * (xs.length : Int) + getPartial w := by
  simp [bitLength, List.getLastD_eq_getLast?]

theorem bitLength_append_of_full {a1 a2 : List Int} (h1 : a1 ≠ []) (h2 : a2 ≠ [])
    (hgp : getPartial (a1.getLastD 0) = 32) :
    bitLength (a1 ++ a2) = bitLength a1 + bitLength a2 := by
  have hl1 : 1 ≤ a1.length := List.length_pos.mpr h1
  have hl2 : 1 ≤ a2.length := List.length_pos.mpr h2
  have happ : (a1 ++ a2) ≠ [] := by simp [h1]
  have hlast : (a1 ++ a2).getLastD 0 = a2.getLastD 0 := by
    rw [List.getLastD_eq_getLast?, List.getLastD_eq_getLast?, List.getLast?_append]
    cases e : a2.getLast? with
    | none => exact absurd (List.getLast?_eq_none_iff.mp e) h2
    | some w => rfl
  simp only [bitLength, List.isEmpty_eq_true, happ, h1, h2, if_neg, hlast,
    List.length_append, hgp]
  push_cast
  omega

/-! ## List and bit auxiliaries -/

theorem getD_eq_getLastD {α : Type} {a : List α} {d : α} (h : a ≠ []) :
    a.getD (a.length - 1) d = a.getLastD d := by
  induction a with
  | nil => exact absurd rfl h
  | cons x xs ih =>
      cases e : xs with
      | nil => rfl
      | cons y ys =>
          have hne : xs ≠ [] := by simp [e]
          have := ih hne
          subst e
          simpa [List.getD_cons_succ, Nat.succ_sub_one] using this

theorem set_getD_self {α : Type} {a : List α} {i : Nat} {d : α} (h : i < a.length) :
    a.set i (a.getD i d) = a := by
  induction a generalizing i with
  | nil => simp at h
  | cons x xs ih =>
      cases i with
      | zero => rfl
      | succ j =>
          simp only [List.getD_cons_succ, List.set_cons_succ, List.cons.injEq, true_and]
          exact ih (by simpa using h)

theorem getLast?_set_last {α : Type} {a : List α} {v : α} (h : a ≠ []) :
    (a.set (a.length - 1) v).getLast? = some v := by
  induction a with
  | nil => exact absurd rfl h
  | cons x xs ih =>
      cases xs with
      | nil => rfl
      | cons y ys =>
          have hne : (y :: ys) ≠ [] := by simp
          have ht := ih hne
          show ((x :: y :: ys).set (ys.length + 1) v).getLast? = some v
          have hset : (x :: y :: ys).set (ys.length + 1) v
              = x :: ((y :: ys).set ys.length v) := rfl
          rw [hset]
          obtain ⟨z, zs, hz⟩ : ∃ z zs, (y :: ys).set ys.length v = z :: zs := by
            cases e : (y :: ys).set ys.length v with
            | nil =>
                have := congrArg List.length e
                simp at this
            | cons z zs => exact ⟨z, zs, rfl⟩
          rw [hz, List.getLast?_cons_cons, ← hz]
          simpa using ht

theorem getLastD_set_last {α : Type} {a : List α} {v d : α} (h : a ≠ []) :
    (a.set (a.length - 1) v).getLastD d = v := by
  rw [List.getLastD_eq_getLast?, getLast?_set_last h]
  rfl

theorem mod_pow_eq_zero_iff (x k : Nat) :
    x % 2 ^ k = 0 ↔ ∀ i < k, x.testBit i = false := by
  constructor
  · intro h i hi
    rw [Nat.testBit_to_div_mod]
    have hd : 2 ^ k ∣ x := Nat.dvd_of_mod_eq_zero h
    obtain ⟨c, rfl⟩ := hd
    have he : 2 ^ k * c / 2 ^ i = 2 ^ (k - i) * c := by
      rw [show 2 ^ k = 2 ^ i * 2 ^ (k - i) by rw [← pow_add]; congr 1; omega,
        Nat.mul_assoc, Nat.mul_div_cancel_left _ (Nat.pos_pow_of_pos i (by norm_num))]
    rw [he]
    have : 2 ∣ 2 ^ (k - i) * c := Dvd.dvd.mul_right (dvd_pow_self 2 (by omega)) c
    simp [Nat.mul_mod_right, Nat.eq_zero_of_dvd_of_lt]
    omega
  · intro h
    have : ∀ i, (x % 2 ^ k).testBit i = Nat.testBit 0 i := by
      intro i
      rw [Nat.testBit_mod_two_pow, Nat.zero_testBit]
      by_cases hi : i < k
      · simp [hi, h i hi]
      · simp [hi]
    exact Nat.eq_of_testBit_eq this

theorem land_mod_pow_zero (x y k : Nat) (hy : y % 2 ^ k = 0) :
    Nat.land x y % 2 ^ k = 0 := by
  rw [mod_pow_eq_zero_iff] at hy ⊢
  intro i hi
  show (x &&& y).testBit i = false
  rw [Nat.testBit_land, hy i hi, Bool.and_false]

theorem land_mask_self {x k : Nat} (hk : k ≤ 32) (hx : x < 4294967296)
    (hz : x % 2 ^ k = 0) : Nat.land x (4294967296 - 2 ^ k) = x := by
  have hmask : (4294967296 : Nat) - 2 ^ k = (2 ^ (32 - k) - 1) * 2 ^ k := by
    have h1 : (2 : Nat) ^ (32 - k) * 2 ^ k = 2 ^ 32 := by
      rw [← pow_add]
      congr 1
      omega
    have h2 : (2 : Nat) ^ k ≤ 2 ^ 32 := Nat.pow_le_pow_right (by norm_num) (by omega)
    have h3 : (4294967296 : Nat) = 2 ^ 32 := by norm_num
    rw [h3, Nat.sub_one_mul, h1]
  apply Nat.eq_of_testBit_eq
  intro i
  show (x &&& (4294967296 - 2 ^ k)).testBit i = x.testBit i
  rw [Nat.testBit_land, hmask, ← Nat.shiftLeft_eq, Nat.testBit_shiftLeft,
    Nat.testBit_two_pow_sub_one]
  by_cases hik : k ≤ i
  · by_cases hi32 : i < 32
    · simp [hik, show i - k < 32 - k by omega]
    · have hxb : x.testBit i = false :=
        Nat.testBit_lt_two_pow (lt_of_lt_of_le hx
          (by calc (4294967296 : Nat) = 2 ^ 32 := by norm_num
                _ ≤ 2 ^ i := Nat.pow_le_pow_right (by norm_num) (by omega)))
      simp [hxb]
  · have hxb : x.testBit i = false := (mod_pow_eq_zero_iff x k).mp hz i (by omega)
    simp [hik, hxb]

theorem getD_take {α : Type} :
    ∀ (a : List α) (k i : Nat) (d : α), i < k → (a.take k).getD i d = a.getD i d := by
  intro a
  induction a with
  | nil => intro k i d _; simp
  | cons x xs ih =>
      intro k i d hik
      cases k with
      | zero => omega
      | succ k2 =>
          cases i with
          | zero => rfl
          | succ j => simpa using ih k2 j d (by omega)

theorem getD_dropLast {α : Type} :
    ∀ (a : List α) (i : Nat) (d : α), i < a.length - 1 → a.dropLast.getD i d = a.getD i d := by
  intro a
  induction a with
  | nil => intro i d h; simp at h
  | cons x xs ih =>
      intro i d h
      cases xs with
      | nil => simp at h
      | cons y ys =>
          cases i with
          | zero => rfl
          | succ j =>
              have := ih j d (by simp at h ⊢; omega)
              simpa [List.dropLast_cons_of_ne_nil] using this

theorem validBA_full {a : List Int} {i : Nat} (hv : validBA a = true)
    (hi : i < a.length - 1) : fullWordB (a.getD i 0) = true := by
  simp only [validBA, Bool.and_eq_true, List.all_eq_true] at hv
  have hlen : i < a.dropLast.length := by
    rw [List.length_dropLast]
    exact hi
  have hmem : a.dropLast.getD i 0 ∈ a.dropLast := by
    rw [List.getD_eq_getElem _ _ hlen]
    exact List.getElem_mem hlen
  have := hv.1 _ hmem
  rwa [getD_dropLast a i 0 hi] at this

theorem mask_val {t : Nat} (h1 : 1 ≤ t) (h2 : t ≤ 31) :
    jsShrS 2147483648 ((t : Int) - 1) = -((2 : Int) ^ (32 - t)) := by
  have hi : jsToInt32 2147483648 = -2147483648 := by decide
  have hsh : shAmt ((t : Int) - 1) = t - 1 := by
    simp only [shAmt, u32]
    omega
  have hpow : (2147483648 : Int) = 2 ^ (32 - t) * 2 ^ (t - 1) := by
    rw [← pow_add, show 32 - t + (t - 1) = 31 by omega]
    norm_num
  rw [jsShrS, hi, hsh, Int.fdiv_eq_ediv _ (by positivity)]
  rw [show (-2147483648 : Int) = -(2 ^ (32 - t)) * 2 ^ (t - 1) by rw [neg_mul, ← hpow]]
  exact Int.mul_ediv_cancel _ (by positivity)

theorem u32_neg_pow {k : Nat} (h1 : 1 ≤ k) (h2 : k ≤ 31) :
    u32 (-((2 : Int) ^ k)) = 4294967296 - 2 ^ k := by
  have hb : (2 : Int) ^ k ≤ 2 ^ 31 := pow_le_pow_right₀ (by norm_num) h2
  have hb0 : (0 : Int) < 2 ^ k := pow_pos (by norm_num) k
  have hc : ((2 ^ k : Nat) : Int) = (2 : Int) ^ k := by push_cast; ring
  have hbn : 2 ^ k ≤ 4294967296 := by
    have : ((2 ^ k : Nat) : Int) ≤ 4294967296 := by rw [hc]; omega
    omega
  simp only [u32]
  omega

theorem getLastD_set_eq {α : Type} {a : List α} {v d : α} {i : Nat}
    (hi : i = a.length - 1) (h : a ≠ []) : (a.set i v).getLastD d = v := by
  subst hi
  exact getLastD_set_last h

/-- The guard branch of `clamp`. -/
theorem clamp_oversize {a : List Int} {len : Nat}
    (h : (a.length : Int) * 32 < (len : Int)) : clamp a len = a := by
  rw [clamp, if_pos h]

/-- `clamp` at exactly the word capacity returns the array itself. -/
theorem clamp_mul32 (a : List Int) : clamp a (32 * a.length) = a := by
  rw [clamp, if_neg (by push_cast; omega)]
  have htake : (32 * a.length + 31) / 32 = a.length := by omega
  have hmod : (32 * a.length) % 32 = 0 := by omega
  simp only [htake, hmod, List.take_length]
  rw [if_neg (by simp)]

/-- When the requested length falls strictly inside the last word, `clamp`
takes the whole array and re-tags its last word. -/
theorem clamp_last_partial {a : List Int} {len : Nat} (ha : a ≠ [])
    (h1 : 32 * (a.length - 1) < len) (h2 : len < 32 * a.length) :
    clamp a len = a.set (a.length - 1)
      (mkPartial ((len % 32 : Nat) : Int)
        (jsAnd (a.getLastD 0) (jsShrS 2147483648 (((len % 32 : Nat) : Int) - 1))) true) := by
  have hla : 1 ≤ a.length := List.length_pos.mpr ha
  have htake : (len + 31) / 32 = a.length := by omega
  have hmod : len % 32 ≠ 0 := by omega
  rw [clamp, if_neg (by push_cast; omega)]
  simp only [htake, List.take_length]
  rw [if_pos ⟨by omega, hmod⟩, getD_eq_getLastD ha]

/-- The word `clamp` writes into the new last slot has all bits beyond the
requested length zero. -/
theorem mkPartial_masked_lowzero {len2 : Nat} (h1 : 1 ≤ len2) (h2 : len2 ≤ 31) (v : Int) :
    u32 (mkPartial ((len2 : Nat) : Int)
      (jsAnd v (jsShrS 2147483648 ((len2 : Int) - 1))) true) % 2 ^ (32 - len2) = 0 := by
  have hk1 : 1 ≤ 32 - len2 := by omega
  have hk2 : 32 - len2 ≤ 31 := by omega
  have hmask : jsShrS 2147483648 ((len2 : Int) - 1) = -((2 : Int) ^ (32 - len2)) :=
    mask_val h1 h2
  have humask : u32 (jsShrS 2147483648 ((len2 : Int) - 1)) = 4294967296 - 2 ^ (32 - len2) := by
    rw [hmask]
    exact u32_neg_pow hk1 hk2
  set x := jsAnd v (jsShrS 2147483648 ((len2 : Int) - 1)) with hx
  have hland : u32 x = Nat.land (u32 v) (4294967296 - 2 ^ (32 - len2)) := by
    have hlt : Nat.land (u32 v) (u32 (jsShrS 2147483648 ((len2 : Int) - 1))) < 4294967296 :=
      lt_of_le_of_lt Nat.and_le_left (u32_lt v)
    rw [hx, jsAnd, u32_i32 hlt, humask]
  have hmkp : mkPartial ((len2 : Nat) : Int) x true = jsToInt32 x + (len2 : Int) * 1099511627776 := by
    rw [mkPartial, if_neg (by omega : ¬ ((len2 : Nat) : Int) = 32)]
    simp
  have hxr : jsToInt32 x = x := by
    have hb := i32_bounds (n := Nat.land (u32 v) (u32 (jsShrS 2147483648 ((len2 : Int) - 1))))
      (lt_of_le_of_lt Nat.and_le_left (u32_lt v))
    exact jsToInt32_eq_of_bounds (by rw [hx, jsAnd]; exact hb.1) (by rw [hx, jsAnd]; exact hb.2)
  have hu32add : u32 (jsToInt32 x + (len2 : Int) * 1099511627776) = u32 x := by
    rw [hxr]
    simp only [u32]
    rw [show x + (len2 : Int) * 1099511627776 = x + 4294967296 * ((len2 : Int) * 256) by ring,
      Int.add_mul_emod_self_left]
  rw [hmkp, hu32add, hland]
  have hdvd : 2 ^ (32 - len2) ∣ 4294967296 - 2 ^ (32 - len2) := by
    apply Nat.dvd_sub'
    · show (2 : Nat) ^ (32 - len2) ∣ 4294967296
      rw [show (4294967296 : Nat) = 2 ^ 32 by norm_num]
      exact pow_dvd_pow 2 (by omega)
    · exact dvd_rfl
  exact land_mod_pow_zero _ _ _ (Nat.mod_eq_zero_of_dvd hdvd)

theorem bitLength_of_ne_nil {a : List Int} (h : a ≠ []) :
    bitLength a = 32 * ((a.length : Int) - 1) + getPartial (a.getLastD 0) := by
  have hie : a.isEmpty = false := by simp [h]
  simp only [bitLength, hie, Bool.false_eq_true, if_false]

/-- Truncating strictly inside the last word yields exactly `len` significant
bits with the bits beyond `len` in the new last word zero. -/
theorem clamp_partial_props {a : List Int} {len : Nat} (ha : a ≠ [])
    (h1 : 32 * (a.length - 1) < len) (h2 : len < 32 * a.length) :
    bitLength (clamp a len) = (len : Int) ∧
    u32 ((clamp a len).getLastD 0) % 2 ^ ((32 - len % 32) % 32) = 0 := by
  have hla : 1 ≤ a.length := List.length_pos.mpr ha
  have hm1 : 1 ≤ len % 32 := by omega
  have hm2 : len % 32 ≤ 31 := by omega
  rw [ clamp_last_partial ha h1 h2]
  have hsne : a.set (a.length - 1)
      (mkPartial ((len % 32 : Nat) : Int)
        (jsAnd (a.getLastD 0) (jsShrS 2147483648 (((len % 32 : Nat) : Int) - 1))) true) ≠ [] := by
    intro e
    have hl := congrArg List.length e
    rw [List.length_set] at hl
    exact ha (List.eq_nil_of_length_eq_zero hl)
  constructor
  · rw [bitLength_of_ne_nil hsne, List.length_set, getLastD_set_last ha,
      mkPartial_true_gp _ (by omega) (by omega)]
    have e2 : len % 32 = len - 32 * (a.length - 1) := by omega
    rw [e2, Nat.cast_sub (by omega : 32 * (a.length - 1) ≤ len), Nat.cast_mul,
      Nat.cast_sub (by omega : 1 ≤ a.length)]
    push_cast
    ring
  · rw [getLastD_set_last ha,
      show (32 - len % 32) % 32 = 32 - len % 32 by omega]
    exact mkPartial_masked_lowzero hm1 hm2 _

/-- C7 counterexample: the claim "for every `len ≥ bitLength a`, `clamp a len`
returns `a` unchanged" is false.  `clamp` only short-circuits on the word
capacity (`a.length * 32 < len`), so clamping a 16-bit array to 20 bits
re-tags the last word from 16 to 20 significant bits, returning a different
array (of bit length 20). -/
theorem c7_cex :
    validBA [268435456 + 16 * 1099511627776] = true ∧
    bitLength [268435456 + 16 * 1099511627776] ≤ 20 ∧
    clamp [268435456 + 16 * 1099511627776] 20 ≠ [268435456 + 16 * 1099511627776] ∧
    bitLength (clamp [268435456 + 16 * 1099511627776] 20) = 20 := by
  refine ⟨by decide, by decide, ?_, by decide⟩
  decide

/-- C7 (amended): `clamp a len` returns `a` unchanged when `len` exceeds the
word capacity `32 * a.length`, when `len` equals that capacity, and when `len`
equals `bitLength a` exactly — but not for every `len ≥ bitLength a`: for
`bitLength a < len < 32 * a.length` (a partial last word) it returns the same
words re-tagged to exactly `len` significant bits.  For `len < bitLength a`
it returns exactly `len` significant bits with every bit beyond `len` in the
new last word zero, as claimed. -/
theorem c7_clamp (a : List Int) (len : Nat) (hv : validBA a = true) :
    ((a.length : Int) * 32 < (len : Int) → clamp a len = a) ∧
    (len = 32 * a.length → clamp a len = a) ∧
    ((len : Int) = bitLength a → clamp a len = a) ∧
    (bitLength a < (len : Int) → (len : Int) < 32 * (a.length : Int) →
      bitLength (clamp a len) = (len : Int)) ∧
    ((len : Int) < bitLength a →
      bitLength (clamp a len) = (len : Int) ∧
      u32 ((clamp a len).getLastD 0) % 2 ^ ((32 - len % 32) % 32) = 0) := by
  refine ⟨fun h => clamp_oversize h, fun h => by rw [h]; exact clamp_mul32 a, ?_, ?_, ?_⟩
  · -- len = bitLength a exactly: unchanged
    intro h
    by_cases ha : a = []
    · subst ha
      have h0 : len = 0 := by
        simp [bitLength] at h
        omega
      subst h0
      exact clamp_mul32 []
    have hla : 1 ≤ a.length := List.length_pos.mpr ha
    have hb := bitLength_of_ne_nil ha
    have hgp := validBA_last_gp hv ha
    by_cases ht32 : getPartial (a.getLastD 0) = 32
    · have hlen : len = 32 * a.length := by
        rw [hb, ht32] at h
        omega
      rw [hlen]
      exact clamp_mul32 a
    · have hlw := validBA_last hv ha
      have hfull : fullWordB (a.getLastD 0) = false := by
        cases hfb : fullWordB (a.getLastD 0) with
        | false => rfl
        | true =>
            exfalso
            simp only [fullWordB, Bool.and_eq_true, decide_eq_true_eq] at hfb
            exact ht32 (gp_small (by omega) (by omega))
      rw [lastWordB, hfull, Bool.false_or] at hlw
      simp only [Bool.and_eq_true, decide_eq_true_eq] at hlw
      obtain ⟨⟨⟨⟨hp1, hp2⟩, hp3⟩, hp4⟩, hp5⟩ := hlw
      have hlenInt : (len : Int) = 32 * ((a.length : Int) - 1) + getPartial (a.getLastD 0) := by
        rw [h, hb]
      have h1 : 32 * (a.length - 1) < len := by omega
      have h2 : len < 32 * a.length := by omega
      rw [ clamp_last_partial ha h1 h2]
      have hmodt : ((len % 32 : Nat) : Int) = getPartial (a.getLastD 0) := by omega
      have huw : u32 (a.getLastD 0)
          = u32 (a.getLastD 0 - getPartial (a.getLastD 0) * 1099511627776) := by
        have hrepr : a.getLastD 0 = (a.getLastD 0 - getPartial (a.getLastD 0) * 1099511627776)
            + 4294967296 * (getPartial (a.getLastD 0) * 256) := by ring
        simp only [u32]
        conv_lhs => rw [hrepr]
        rw [Int.add_mul_emod_self_left]
      have hjsand : jsAnd (a.getLastD 0) (jsShrS 2147483648 (((len % 32 : Nat) : Int) - 1))
          = a.getLastD 0 - getPartial (a.getLastD 0) * 1099511627776 := by
        have hmask : jsShrS 2147483648 (((len % 32 : Nat) : Int) - 1)
            = -((2 : Int) ^ (32 - len % 32)) := mask_val (by omega) (by omega)
        have hland : Nat.land (u32 (a.getLastD 0))
            (u32 (jsShrS 2147483648 (((len % 32 : Nat) : Int) - 1)))
            = u32 (a.getLastD 0 - getPartial (a.getLastD 0) * 1099511627776) := by
          rw [hmask, u32_neg_pow (by omega) (by omega), huw]
          apply land_mask_self (by omega) (u32_lt _)
          rw [show 32 - len % 32 = 32 - (getPartial (a.getLastD 0)).toNat by omega]
          exact hp5
        rw [jsAnd, hland]
        exact jsToInt32_eq_of_bounds hp3 hp4
      rw [hjsand]
      have hmkp : mkPartial ((len % 32 : Nat) : Int)
          (a.getLastD 0 - getPartial (a.getLastD 0) * 1099511627776) true = a.getLastD 0 := by
        rw [hmodt, mkPartial, if_neg ht32, if_pos rfl,
          jsToInt32_eq_of_bounds hp3 hp4]
        ring
      rw [hmkp]
      have hset := set_getD_self (a := a) (i := a.length - 1) (d := (0 : Int)) (by omega)
      rwa [getD_eq_getLastD ha] at hset
  · -- bitLength a < len < 32*a.length : re-tagged to len bits
    intro h4a h4b
    have ha : a ≠ [] := by
      intro e
      subst e
      simp at h4b
      omega
    have hla : 1 ≤ a.length := List.length_pos.mpr ha
    have hb := bitLength_of_ne_nil ha
    have hgp := validBA_last_gp hv ha
    rw [hb] at h4a
    have h1 : 32 * (a.length - 1) < len := by omega
    have h2 : len < 32 * a.length := by omega
    exact (clamp_partial_props ha h1 h2).1
  · -- len < bitLength a : exact truncation
    intro h5
    have ha : a ≠ [] := by
      intro e
      subst e
      simp [bitLength] at h5
      omega
    have hla : 1 ≤ a.length := List.length_pos.mpr ha
    have hb := bitLength_of_ne_nil ha
    have hgp := validBA_last_gp hv ha
    rw [hb] at h5
    by_cases hl0 : len = 0
    · subst hl0
      have hc : clamp a 0 = [] := by
        rw [clamp, if_neg (by push_cast; omega)]
        norm_num
      rw [hc]
      exact ⟨by simp [bitLength], by simp [u32]⟩
    by_cases hcaseC : 32 * (a.length - 1) < len
    · exact clamp_partial_props ha hcaseC (by omega)
    push_neg at hcaseC
    have hguard : ¬ ((a.length : Int) * 32 < (len : Int)) := by push_cast; omega
    by_cases hm : len % 32 = 0
    · -- len a positive multiple of 32, truncation keeps only full words
      have hmlen : len = 32 * (len / 32) := by omega
      have htake : (len + 31) / 32 = len / 32 := by omega
      have hm1 : 1 ≤ len / 32 := by omega
      have hmla : len / 32 ≤ a.length - 1 := by omega
      have hres : clamp a len = a.take (len / 32) := by
        rw [clamp, if_neg hguard]
        simp only [htake]
        rw [if_neg (by simp [hm])]
      rw [hres]
      have hlt : (a.take (len / 32)).length = len / 32 := by
        rw [List.length_take]
        omega
      have htne : a.take (len / 32) ≠ [] := by
        intro e
        have := congrArg List.length e
        rw [hlt] at this
        simp at this
        omega
      have hlast : (a.take (len / 32)).getLastD 0 = a.getD (len / 32 - 1) 0 := by
        rw [← getD_eq_getLastD htne, hlt, getD_take _ _ _ _ (by omega)]
      have hfw : fullWordB (a.getD (len / 32 - 1) 0) = true := validBA_full hv (by omega)
      simp only [fullWordB, Bool.and_eq_true, decide_eq_true_eq] at hfw
      have hgp32 : getPartial ((a.take (len / 32)).getLastD 0) = 32 := by
        rw [hlast]
        exact gp_small (by omega) (by omega)
      refine ⟨?_, ?_⟩
      · rw [bitLength_of_ne_nil htne, hlt, hgp32]
        omega
      · rw [hm]
        simp [Nat.mod_one]
    · -- len % 32 ≠ 0 : truncation re-tags a full word in the middle
      have hm1 : 1 ≤ len % 32 := by omega
      have hm2 : len % 32 ≤ 31 := by omega
      have htake : (len + 31) / 32 = len / 32 + 1 := by omega
      have hkla : len / 32 + 1 ≤ a.length - 1 := by omega
      have hlt : (a.take (len / 32 + 1)).length = len / 32 + 1 := by
        rw [List.length_take]
        omega
      have htne : a.take (len / 32 + 1) ≠ [] := by
        intro e
        have := congrArg List.length e
        rw [hlt] at this
        simp at this
      have hres : clamp a len = (a.take (len / 32 + 1)).set (len / 32 + 1 - 1)
          (mkPartial ((len % 32 : Nat) : Int)
            (jsAnd ((a.take (len / 32 + 1)).getD (len / 32 + 1 - 1) 0)
              (jsShrS 2147483648 (((len % 32 : Nat) : Int) - 1))) true) := by
        rw [clamp, if_neg hguard]
        simp only [htake, hlt]
        rw [if_pos ⟨by omega, hm⟩]
      rw [hres]
      have hsne : (a.take (len / 32 + 1)).set (len / 32 + 1 - 1)
          (mkPartial ((len % 32 : Nat) : Int)
            (jsAnd ((a.take (len / 32 + 1)).getD (len / 32 + 1 - 1) 0)
              (jsShrS 2147483648 (((len % 32 : Nat) : Int) - 1))) true) ≠ [] := by
        intro e
        have hl := congrArg List.length e
        rw [List.length_set] at hl
        exact htne (List.eq_nil_of_length_eq_zero hl)
      refine ⟨?_, ?_⟩
      · rw [bitLength_of_ne_nil hsne, List.length_set,
          getLastD_set_eq (by rw [hlt]) htne,
          mkPartial_true_gp _ (by omega) (by omega), hlt]
        have e2 : len % 32 = len - 32 * (len / 32) := by omega
        rw [e2, Nat.cast_sub (by omega : 32 * (len / 32) ≤ len), Nat.cast_mul]
        push_cast
        ring
      · rw [getLastD_set_eq (by rw [hlt]) htne,
          show (32 - len % 32) % 32 = 32 - len % 32 by omega]
        exact mkPartial_masked_lowzero hm1 hm2 _

/-- C7 witness: the amended theorem applied at a concrete 16-bit array. -/
theorem c7_clamp_witness :
    validBA [268435456 + 16 * 1099511627776] = true ∧
    (((8 : Nat) : Int) < bitLength [268435456 + 16 * 1099511627776] →
      bitLength (clamp [268435456 + 16 * 1099511627776] 8) = ((8 : Nat) : Int) ∧
      u32 ((clamp [268435456 + 16 * 1099511627776] 8).getLastD 0) % 2 ^ ((32 - 8 % 32) % 32) = 0) :=
  ⟨by decide, (c7_clamp [268435456 + 16 * 1099511627776] 8 (by decide)).2.2.2.2⟩

/-- C6: for all (well-formed) bit arrays `a` and `b`,
`bitLength (concat a b) = bitLength a + bitLength b`, including the case where
`a`'s last word is partial (`concat` re-justifies `b` through `_shiftRight`)
and the cases where either array is empty. -/
theorem c6_concat_bitLength (a1 a2 : List Int)
    (h1 : validBA a1 = true) (h2 : validBA a2 = true) :
    bitLength (concat a1 a2) = bitLength a1 + bitLength a2 := by
  by_cases e1 : a1 = []
  · subst e1
    simp [concat, bitLength]
  by_cases e2 : a2 = []
  · subst e2
    simp [concat, bitLength]
  have hne1 : a1.isEmpty = false := by simp [e1]
  have hne2 : a2.isEmpty = false := by simp [e2]
  have hl1 : 1 ≤ a1.length := List.length_pos.mpr e1
  have hl2 : 1 ≤ a2.length := List.length_pos.mpr e2
  have hgp1 := validBA_last_gp h1 e1
  have hgp2 := validBA_last_gp h2 e2
  rw [concat]
  simp only [hne1, hne2, Bool.or_self, Bool.false_or, if_neg (by simp : ¬ false = true)]
  by_cases hs32 : getPartial (a1.getLastD 0) = 32
  · rw [if_pos hs32]
    exact bitLength_append_of_full e1 e2 hs32
  rw [if_neg hs32]
  set s := getPartial (a1.getLastD 0) with hsdef
  set s2 := getPartial (a2.getLastD 0) with hs2def
  have hs1 : 1 ≤ s := hgp1.1
  have hsle : s ≤ 31 := by omega
  -- unfold `_shiftRight` with shift in [1, 31]
  rw [shiftRightBA]
  simp only [srPre_small (by omega : ¬ (32 : Int) ≤ s)]
  rw [if_neg (by omega : ¬ s = 0)]
  have hout1len : (srMain a2 s (jsToInt32 (a1.getLastD 0)) a1.dropLast).1.length
      = (a1.length - 1) + a2.length := by
    rw [srMain_len, List.length_dropLast]
  have hblen1 : bitLength a1 = 32 * ((a1.length : Int) - 1) + s := by
    simp only [bitLength, hne1, Bool.false_eq_true, if_false]
  have hblen2 : bitLength a2 = 32 * ((a2.length : Int) - 1) + s2 := by
    simp only [bitLength, hne2, Bool.false_eq_true, if_false]
  by_cases hcross : 32 < s + s2
  · rw [if_pos hcross]
    have htag : jsAnd (s + s2) 31 = s + s2 - 32 := by
      rw [jsAnd_31 (by omega) (by omega)]
      omega
    rw [bitLength_append_last, htag,
      mkPartial_true_gp _ (by omega) (by omega), hout1len, hblen1, hblen2]
    push_cast
    omega
  · rw [if_neg hcross]
    have hposlen : 1 ≤ (srMain a2 s (jsToInt32 (a1.getLastD 0)) a1.dropLast).1.length := by
      omega
    by_cases heq32 : s + s2 = 32
    · have htag : jsAnd (s + s2) 31 = 0 := by
        rw [jsAnd_31 (by omega) (by omega), heq32]
        rfl
      rw [bitLength_append_last, htag, mkPartial_zero_gp, List.length_dropLast,
        hout1len, hblen1, hblen2]
      push_cast
      omega
    · have htag : jsAnd (s + s2) 31 = s + s2 := by
        rw [jsAnd_31 (by omega) (by omega)]
        omega
      rw [bitLength_append_last, htag,
        mkPartial_true_gp _ (by omega) (by omega), List.length_dropLast,
        hout1len, hblen1, hblen2]
      push_cast
      omega

/-! ## C8: `extract` reads the requested bit span -/

theorem u32_natCast_mod (n : Nat) : u32 ((n : Nat) : Int) = n % 4294967296 := by
  simp only [u32]
  omega

theorem u32_natCast {n : Nat} (h : n < 4294967296) : u32 ((n : Nat) : Int) = n := by
  rw [u32_natCast_mod]
  omega

theorem u32_jsShrU (a b : Int) : u32 (jsShrU a b) = u32 a >>> shAmt b := by
  rw [jsShrU, u32_natCast]
  have hle : u32 a >>> shAmt b ≤ u32 a := by
    rw [Nat.shiftRight_eq_div_pow]
    exact Nat.div_le_self _ _
  exact lt_of_le_of_lt hle (u32_lt a)

theorem u32_jsShl (a b : Int) : u32 (jsShl a b) = (u32 a <<< shAmt b) % 4294967296 := by
  rw [jsShl, u32_i32]
  omega

theorem u32_jsXor (a b : Int) : u32 (jsXor a b) = Nat.xor (u32 a) (u32 b) := by
  rw [jsXor, u32_i32]
  have ha : u32 a < 2 ^ 32 := u32_lt a
  have hb : u32 b < 2 ^ 32 := u32_lt b
  calc Nat.xor (u32 a) (u32 b) < 2 ^ 32 := Nat.xor_lt_two_pow ha hb
    _ = 4294967296 := by norm_num

theorem jsAnd_31_general (x : Int) : jsAnd x 31 = ((u32 x % 32 : Nat) : Int) := by
  have hu31 : u32 31 = 31 := by decide
  simp only [jsAnd, hu31, land_31, i32]
  rw [if_pos (by omega)]

theorem land_pred_pow (m b : Nat) : Nat.land m (2 ^ b - 1) = m % 2 ^ b := by
  show m &&& (2 ^ b - 1) = m % 2 ^ b
  apply Nat.eq_of_testBit_eq
  intro i
  rw [Nat.testBit_land, Nat.testBit_two_pow_sub_one, Nat.testBit_mod_two_pow, Bool.and_comm]

theorem shAmt_small {x : Int} (h0 : 0 ≤ x) (h1 : x < 32) : shAmt x = x.toNat := by
  simp only [shAmt, u32]
  omega

theorem u32_mask {b : Nat} (h1 : 1 ≤ b) (h2 : b ≤ 31) :
    u32 (jsShl 1 (b : Int) - 1) = 2 ^ b - 1 := by
  by_cases hb : b ≤ 30
  · rw [jsShl_one hb]
    have hlt : (2 : Nat) ^ b < 4294967296 := by
      calc (2 : Nat) ^ b ≤ 2 ^ 30 := Nat.pow_le_pow_right (by norm_num) hb
        _ < 4294967296 := by norm_num
    have h1n : (1 : Nat) ≤ 2 ^ b := Nat.one_le_two_pow
    simp only [u32]
    generalize hgen : (2 : Nat) ^ b = m at hlt h1n ⊢
    omega
  · have hb31 : b = 31 := by omega
    subst hb31
    decide

theorem i32_eq_zero_iff {n : Nat} (h : n < 4294967296) : i32 n = 0 ↔ n = 0 := by
  simp only [i32]
  split <;> omega

theorem extract_sh (bstart blength : Nat) :
    jsAnd (-(bstart : Int) - (blength : Int)) 31
      = (((32 - (bstart + blength) % 32) % 32 : Nat) : Int) := by
  rw [jsAnd_31_general]
  congr 1
  have h32 : ((-(bstart : Int) - blength) % 4294967296) % 32
      = (-(bstart : Int) - blength) % 32 :=
    Int.emod_emod_of_dvd _ (by norm_num)
  simp only [u32]
  omega

theorem specBitAt_le (a : List Int) (p : Nat) : specBitAt a p ≤ 1 := by
  have h : specBitAt a p < 2 := Nat.mod_lt _ (by norm_num)
  omega

theorem bit0_testBit {b : Nat} (h : b ≤ 1) : b.testBit 0 = decide (b = 1) := by
  interval_cases b <;> decide

theorem specBits_lt (a : List Int) (s n : Nat) : specBits a s n < 2 ^ n := by
  induction n generalizing s with
  | zero => simp [specBits]
  | succ n ih =>
    have h1 : specBitAt a s ≤ 1 := specBitAt_le a s
    have h2 := ih (s + 1)
    have h3 : specBitAt a s * 2 ^ n ≤ 1 * 2 ^ n := mul_le_mul_right' h1 _
    simp only [specBits, pow_succ]
    generalize hm : (2 : Nat) ^ n = m at h2 h3 ⊢
    omega

theorem tb_addMul (b r n t : Nat) (hr : r < 2 ^ n) :
    (b * 2 ^ n + r).testBit t = if t < n then r.testBit t else b.testBit (t - n) := by
  by_cases ht : t < n
  · rw [if_pos ht, Nat.testBit_to_div_mod, Nat.testBit_to_div_mod]
    suffices h : (b * 2 ^ n + r) / 2 ^ t % 2 = r / 2 ^ t % 2 by rw [h]
    have e1 : b * 2 ^ n + r = 2 ^ t * (b * 2 ^ (n - t)) + r := by
      have hp : (2 : Nat) ^ t * 2 ^ (n - t) = 2 ^ n := by
        rw [← pow_add]
        congr 1
        omega
      rw [← hp]
      ring
    rw [e1, Nat.mul_add_div (Nat.pos_pow_of_pos _ (by norm_num))]
    have e2 : b * 2 ^ (n - t) = 2 * (b * 2 ^ (n - t - 1)) := by
      have hp : (2 : Nat) ^ (n - t) = 2 ^ (n - t - 1) * 2 := by
        rw [← pow_succ]
        congr 1
        omega
      rw [hp]
      ring
    omega
  · rw [if_neg ht, Nat.testBit_to_div_mod, Nat.testBit_to_div_mod]
    suffices h : (b * 2 ^ n + r) / 2 ^ t = b / 2 ^ (t - n) by rw [h]
    have e1 : (2 : Nat) ^ t = 2 ^ n * 2 ^ (t - n) := by
      rw [← pow_add]
      congr 1
      omega
    rw [e1, ← Nat.div_div_eq_div_mul]
    congr 1
    rw [mul_comm b, Nat.mul_add_div (Nat.pos_pow_of_pos _ (by norm_num)),
      Nat.div_eq_of_lt hr, add_zero]

theorem specBits_testBit (a : List Int) (s n t : Nat) :
    (specBits a s n).testBit t
      = (decide (t < n) && decide (specBitAt a (s + n - 1 - t) = 1)) := by
  induction n generalizing s t with
  | zero => simp [specBits]
  | succ n ih =>
    simp only [specBits]
    rw [tb_addMul _ _ _ _ (specBits_lt a (s + 1) n)]
    by_cases ht : t < n
    · rw [if_pos ht, ih (s + 1) t]
      simp [ht, show t < n + 1 from by omega,
        show s + 1 + n - 1 - t = s + (n + 1) - 1 - t from by omega]
    · rw [if_neg ht]
      by_cases ht1 : t = n
      · subst ht1
        have hidx : s + (t + 1) - 1 - t = s := by omega
        rw [Nat.sub_self, bit0_testBit (specBitAt_le a s), hidx]
        simp [Nat.lt_succ_self]
      · have h2 : ¬ t < n + 1 := by omega
        have hbit : (specBitAt a s).testBit (t - n) = false := by
          apply Nat.testBit_lt_two_pow
          have hle := specBitAt_le a s
          have h1 : (1 : Nat) < 2 ^ (t - n) := Nat.one_lt_two_pow_iff.mpr (by omega)
          omega
        rw [hbit]
        simp [h2]

theorem specBitAt_eq (a : List Int) (p : Nat) :
    decide (specBitAt a p = 1) = (u32 (a.getD (p / 32) 0)).testBit (31 - p % 32) := by
  simp only [specBitAt]
  rw [Nat.testBit_to_div_mod]
  simp only [Nat.shiftRight_eq_div_pow]

theorem land_high_mask (u : Nat) (hu : u < 4294967296) :
    Nat.land u 4294967264 = u / 32 * 32 := by
  show u &&& 4294967264 = u / 32 * 32
  have hm : (4294967264 : Nat) = (2 ^ 27 - 1) <<< 5 := by
    rw [Nat.shiftLeft_eq]
    norm_num
  have hr : u / 32 * 32 = (u >>> 5) <<< 5 := by
    rw [Nat.shiftLeft_eq, Nat.shiftRight_eq_div_pow]
  apply Nat.eq_of_testBit_eq
  intro i
  rw [Nat.testBit_land, hm, hr, Nat.testBit_shiftLeft, Nat.testBit_shiftLeft,
    Nat.testBit_shiftRight, Nat.testBit_two_pow_sub_one]
  by_cases h5 : 5 ≤ i
  · rw [show 5 + (i - 5) = i from by omega]
    by_cases h32 : i < 32
    · simp [h5, show i - 5 < 27 from by omega]
    · have hp : (4294967296 : Nat) ≤ 2 ^ i := by
        have h1 : (2 : Nat) ^ 32 ≤ 2 ^ i := Nat.pow_le_pow_right (by norm_num) (by omega)
        have h2 : (4294967296 : Nat) = 2 ^ 32 := by norm_num
        omega
      have hbit : u.testBit i = false := Nat.testBit_lt_two_pow (by omega)
      simp [hbit, show ¬ i - 5 < 27 from by omega]
  · simp [h5]

theorem jsAnd_neg32 (X : Int) : jsAnd X (-32) = 0 ↔ u32 X < 32 := by
  have hm : u32 (-32) = 4294967264 := by decide
  have hu := u32_lt X
  have hlt : u32 X / 32 * 32 < 4294967296 := by omega
  rw [jsAnd, hm, land_high_mask (u32 X) hu, i32_eq_zero_iff hlt]
  omega

theorem xor_lt32_iff (A B : Nat) :
    Nat.xor A B < 32 ↔ A / 32 = B / 32 := by
  have e : ∀ C : Nat, C >>> 5 = C / 32 := by
    intro C
    rw [Nat.shiftRight_eq_div_pow]
  constructor
  · intro h
    have hsh : A >>> 5 = B >>> 5 := by
      apply Nat.eq_of_testBit_eq
      intro i
      rw [Nat.testBit_shiftRight, Nat.testBit_shiftRight]
      have h32 : (32 : Nat) ≤ 2 ^ (5 + i) := by
        have h1 : (2 : Nat) ^ 5 ≤ 2 ^ (5 + i) := Nat.pow_le_pow_right (by norm_num) (by omega)
        omega
      have hx : (Nat.xor A B).testBit (5 + i) = false :=
        Nat.testBit_lt_two_pow (by omega)
      rw [show Nat.xor A B = A ^^^ B from rfl, Nat.testBit_xor] at hx
      cases hA5 : A.testBit (5 + i) <;> cases hB5 : B.testBit (5 + i) <;>
        simp_all
    rw [← e, ← e, hsh]
  · intro h
    have hall : ∀ i, i ≥ 5 → (Nat.xor A B).testBit i = false := by
      intro i hi
      rw [show Nat.xor A B = A ^^^ B from rfl, Nat.testBit_xor]
      have hAB : A.testBit i = B.testBit i := by
        have h1 : (A >>> 5).testBit (i - 5) = (B >>> 5).testBit (i - 5) := by
          rw [e, e, h]
        rw [Nat.testBit_shiftRight, Nat.testBit_shiftRight,
          show 5 + (i - 5) = i from by omega] at h1
        exact h1
      rw [hAB]
      cases B.testBit i <;> rfl
    have h32 : Nat.xor A B < 2 ^ 5 := Nat.lt_pow_two_of_testBit _ hall
    omega

/-- The crossing test of `extract` detects exactly whether the span touches two
words: `((bstart + blength - 1) ^ bstart) & -32` is nonzero iff the first and
last bit live in different 32-bit words (true for offsets of any size: the test
compares the offsets modulo `2^32`, and a wrap of the low 32 bits can only
happen together with a word change). -/
theorem crossing_iff (bstart blength : Nat) (h1 : 0 < blength) (h2 : blength < 32) :
    (jsAnd (jsXor ((bstart : Int) + (blength : Int) - 1) (bstart : Int)) (-32) ≠ 0)
      ↔ bstart / 32 ≠ (bstart + blength - 1) / 32 := by
  have hc : ((bstart : Int) + (blength : Int) - 1) = ((bstart + blength - 1 : Nat) : Int) := by
    push_cast
    omega
  rw [not_iff_not.symm, not_not, not_not, jsAnd_neg32, u32_jsXor, hc,
    u32_natCast_mod, u32_natCast_mod, xor_lt32_iff]
  -- (bstart + blength - 1) % 2^32 and bstart % 2^32 share a 32-block
  -- iff the true offsets do
  omega

theorem shAmt_natCast {k : Nat} (h : k < 32) : shAmt ((k : Nat) : Int) = k := by
  rw [shAmt_small (by positivity) (by exact_mod_cast h), Int.toNat_natCast]

theorem testBit_natXor (A B i : Nat) :
    (Nat.xor A B).testBit i = (A.testBit i).xor (B.testBit i) :=
  Nat.testBit_xor A B i

/-- C8 (amended): for spans of fewer than 32 bits (the mask `(1 << blength) - 1`
is only faithful there), `extract` returns exactly the unsigned integer formed
by bits `bstart .. bstart + blength - 1` of `a`, most significant first, in
both the single-word and the word-crossing case. -/
theorem c8_extract (a : List Int) (bstart blength : Nat) (hv : validBA a = true)
    (h1 : 0 < blength) (h2 : blength < 32)
    (h3 : (bstart : Int) + (blength : Int) ≤ bitLength a) :
    extract a bstart blength = ((specBits a bstart blength : Nat) : Int) := by
  have hsh := extract_sh bstart blength
  set shv := (32 - (bstart + blength) % 32) % 32 with hshv
  have hshvlt : shv < 32 := by omega
  have hmask := u32_mask (show 1 ≤ blength from h1) (show blength ≤ 31 from by omega)
  have hlt31 : ∀ X : Nat, X % 2 ^ blength < 2147483648 := by
    intro X
    have hpow : (2 : Nat) ^ blength ≤ 2 ^ 31 := Nat.pow_le_pow_right (by norm_num) (by omega)
    have hmod : X % 2 ^ blength < 2 ^ blength := Nat.mod_lt _ (by positivity)
    have h31 : (2 : Nat) ^ 31 = 2147483648 := by norm_num
    omega
  simp only [extract]
  rw [hsh]
  by_cases hcr : bstart / 32 = (bstart + blength - 1) / 32
  · -- the span stays in one word
    have hnc : ¬ (jsAnd (jsXor ((bstart : Int) + (blength : Int) - 1) (bstart : Int)) (-32) ≠ 0) := by
      rw [crossing_iff bstart blength h1 h2]
      exact fun hne => hne hcr
    rw [if_neg hnc]
    simp only [jsAnd]
    rw [u32_jsShrU, shAmt_natCast hshvlt, hmask, land_pred_pow]
    simp only [i32]
    rw [if_pos (hlt31 _)]
    apply congrArg
    apply Nat.eq_of_testBit_eq
    intro t
    rw [Nat.testBit_mod_two_pow, Nat.testBit_shiftRight, specBits_testBit]
    by_cases ht : t < blength
    · rw [specBitAt_eq]
      have hword : (bstart + blength - 1 - t) / 32 = bstart / 32 := by omega
      have hbit : 31 - (bstart + blength - 1 - t) % 32 = shv + t := by omega
      rw [hword, hbit]
    · simp [ht]
  · -- the span crosses a word boundary
    have hcc : jsAnd (jsXor ((bstart : Int) + (blength : Int) - 1) (bstart : Int)) (-32) ≠ 0 :=
      (crossing_iff bstart blength h1 h2).mpr hcr
    rw [if_pos hcc]
    have hq1 : (bstart + blength - 1) / 32 = bstart / 32 + 1 := by omega
    have hshv2 : 2 ≤ shv := by omega
    have hsh32 : shAmt (32 - ((shv : Nat) : Int)) = 32 - shv := by
      have hc1 : ((shv : Nat) : Int) < 32 := by exact_mod_cast hshvlt
      have hc2 : (2 : Int) ≤ ((shv : Nat) : Int) := by exact_mod_cast hshv2
      rw [shAmt_small (by omega) (by omega)]
      omega
    simp only [jsAnd]
    rw [u32_jsXor, u32_jsShl, u32_jsShrU, hsh32, shAmt_natCast hshvlt, hmask, land_pred_pow]
    simp only [i32]
    rw [if_pos (hlt31 _)]
    apply congrArg
    apply Nat.eq_of_testBit_eq
    intro t
    rw [Nat.testBit_mod_two_pow, testBit_natXor, specBits_testBit]
    by_cases ht : t < blength
    · rw [specBitAt_eq,
        show (4294967296 : Nat) = 2 ^ 32 from by norm_num,
        Nat.testBit_mod_two_pow, Nat.testBit_shiftLeft, Nat.testBit_shiftRight]
      by_cases hlow : t < 32 - shv
      · have hwo : (bstart + blength - 1 - t) / 32 = bstart / 32 + 1 := by omega
        have hbi : 31 - (bstart + blength - 1 - t) % 32 = shv + t := by omega
        rw [hwo, hbi]
        simp [ht, show ¬ (32 - shv ≤ t) from by omega, show t < 32 from by omega]
      · have hB : (u32 (a.getD (bstart / 32 + 1) 0)).testBit (shv + t) = false := by
          apply Nat.testBit_lt_two_pow
          have hu := u32_lt (a.getD (bstart / 32 + 1) 0)
          have hx : (2 : Nat) ^ 32 ≤ 2 ^ (shv + t) :=
            Nat.pow_le_pow_right (by norm_num) (by omega)
          have h32 : (2 : Nat) ^ 32 = 4294967296 := by norm_num
          omega
        have hwo : (bstart + blength - 1 - t) / 32 = bstart / 32 := by omega
        have hbi : 31 - (bstart + blength - 1 - t) % 32 = t - (32 - shv) := by omega
        rw [hwo, hbi, hB]
        simp [ht, show 32 - shv ≤ t from by omega, show t < 32 from by omega]
    · simp [ht]

/-- C8 counterexample: at `blength = 32` the mask `(1 << 32) - 1` collapses to
`0` (JS shift counts are taken mod 32), so `extract([1], 0, 32)` returns `0`
although bits `0..31` of `[1]` form the integer `1` — the claim's range
`blength ≤ 32` is too generous at its endpoint. -/
theorem c8_cex :
    validBA [(1 : Int)] = true ∧ (0 < 32 ∧ (32 : Nat) ≤ 32) ∧
    ((0 : Nat) : Int) + ((32 : Nat) : Int) ≤ bitLength [(1 : Int)] ∧
    extract [(1 : Int)] 0 32 ≠ ((specBits [(1 : Int)] 0 32 : Nat) : Int) := by
  decide

/-- C8 witness: a span crossing the boundary between two full words
(`0x12345678`, `0x9ABCDEF0` as an int32): bits 28..35 are `0x89 = 137`. -/
theorem c8_extract_witness :
    extract [(305419896 : Int), -1698898192] 28 8
        = ((specBits [(305419896 : Int), -1698898192] 28 8 : Nat) : Int) ∧
    extract [(305419896 : Int), -1698898192] 28 8 = 137 :=
  ⟨c8_extract [(305419896 : Int), -1698898192] 28 8 (by decide) (by decide) (by decide)
      (by decide),
    by decide⟩

/-- C6 witness: two one-word partial arrays (1 bit and 4 bits) whose
concatenation goes through the `_shiftRight` re-justification path. -/
theorem c6_concat_bitLength_witness :
    validBA [-2147483648 + 1099511627776] = true ∧
    validBA [1342177280 + 4 * 1099511627776] = true ∧
    bitLength (concat [-2147483648 + 1099511627776] [1342177280 + 4 * 1099511627776])
      = bitLength [-2147483648 + 1099511627776] + bitLength [1342177280 + 4 * 1099511627776] :=
  ⟨by decide, by decide, c6_concat_bitLength _ _ (by decide) (by decide)⟩

end BitArray

end Sjcl
